import Mathlib

/-!
Verification of the AGON MOS line editor (mos_editor.c) and its string
helpers (strings.c) against the natural-language specification.

Modelling conventions:
- a C char buffer of capacity N is a `List Nat` of length N (one Nat per
  byte); reads beyond the list yield 0 via `nth` only where the C code is
  known to stay in bounds or where the byte read is a terminator;
- C string values (arguments that are conceptually strings, such as hotkey
  slot texts or completion candidates) are 0-free `List Nat` without their
  terminator;
- `int` quantities that can go negative in the C source are modelled as
  `Int` with explicit `toNat` conversions at the points where the source
  uses them as indices;
- fallible or undefined-behaviour paths (a NULL entry reaching strcmp or
  strbuf_append) are modelled with `Option`, `none` meaning the program
  crashed;
- display output (putch/printf of screen bytes) is not part of the state
  we verify, except where a claim mentions it (the bell byte emitted by
  handleHotkey is returned as an explicit flag).
-/

set_option autoImplicit false

namespace MosEditor

/-- Read byte i of a buffer; out-of-range reads give 0 (used only where the
C source stays in bounds or reads a terminator). -/
def nth (l : List Nat) (i : Nat) : Nat := l.getD i 0

/-- Auxiliary for strnlen: length of the string in the first n bytes,
stopping at a 0 byte, at n, or at the end of the modelled buffer. -/
def strnlenAux : List Nat → Nat → Nat
  | [], _ => 0
  | _ :: _, 0 => 0
  | b :: rest, n + 1 => if b = 0 then 0 else strnlenAux rest n + 1

/-- C strnlen(buf, n) on the modelled buffer. -/
def strnlen (buf : List Nat) (n : Nat) : Nat := strnlenAux buf n

/-- C strlen on a modelled buffer: scan the whole buffer for the 0. -/
def cstrlen (buf : List Nat) : Nat := strnlenAux buf buf.length

/-- The string content of a buffer: its bytes before the first 0. -/
def cstr (buf : List Nat) : List Nat := buf.take (cstrlen buf)

/-- A buffer holds a null-terminated string (a 0 byte occurs inside it). -/
def NullTerminated (buf : List Nat) : Prop := cstrlen buf < buf.length

instance (buf : List Nat) : Decidable (NullTerminated buf) := by
  unfold NullTerminated; infer_instance

/-- Model of memcpy(buf + loc, src, src.length): writes the bytes of src at
positions loc, loc+1, ...; out-of-range writes are dropped (the C source
only calls this in bounds). -/
def listCopy : List Nat → Nat → List Nat → List Nat
  | buf, _, [] => buf
  | buf, loc, b :: rest => listCopy (buf.set loc b) (loc + 1) rest

/-- Descending copy loop of insertCharacter, mos_editor.c lines 90-92:
for i = p + k downto p, buffer(i+1) := buffer(i). -/
def shiftRightAux (buf : List Nat) (p : Nat) : Nat → List Nat
  | 0 => buf.set (p + 1) (nth buf p)
  | k + 1 => shiftRightAux (buf.set (p + k + 2) (nth buf (p + k + 1))) p k

/-- Ascending copy loop of deleteCharacter, mos_editor.c lines 120-124:
k iterations of buffer(i) := buffer(i+1) starting at i. -/
def shiftLeftAux (buf : List Nat) (i : Nat) : Nat → List Nat
  | 0 => buf
  | k + 1 => shiftLeftAux (buf.set i (nth buf (i + 1))) (i + 1) k

/-- insertCharacter of mos_editor.c (lines 82-104).  The capacity is the
length of the modelled buffer.  Display echo (putch / doLeftCursor) is not
modelled.  Returns (inserted?, new buffer). -/
def insertCharacter (buf : List Nat) (c : Nat) (insertPos : Nat) :
    Bool × List Nat :=
  let len := strnlen buf buf.length
  if len + 1 < buf.length then
    let shifted := if len < insertPos then buf
      else shiftRightAux buf insertPos (len - insertPos)
    (true, shifted.set insertPos c)
  else
    (false, buf)

/-- deleteCharacter of mos_editor.c (lines 114-131): backspace-delete the
character before insertPos; len is the caller-supplied string length.
Returns (deleted?, new buffer). -/
def deleteCharacter (buf : List Nat) (insertPos len : Nat) :
    Bool × List Nat :=
  if 0 < insertPos then
    (true, shiftLeftAux buf (insertPos - 1) (len - (insertPos - 1)))
  else
    (false, buf)

/-- Fold insertCharacter over a list of (character, position) requests,
keeping only the buffer (failed insertions leave it unchanged). -/
def insertSeq (ops : List (Nat × Nat)) (buf : List Nat) : List Nat :=
  ops.foldl (fun b op => (insertCharacter b op.1 op.2).2) buf

/-! The string helpers of strings.c, and the hotkey expansion of
mos_editor.c, modelled faithfully.  An allocation oracle (a Bool per
umm_malloc call) models the fallible allocator. -/

/-- mos_strndup of strings.c (lines 26-37): copies the first
strnlen(s, n) bytes and null-terminates; returns none when the
allocation fails.  The copy is returned as the bare string (the model of
an owned C string). -/
def mos_strndup (s : List Nat) (n : Nat) (allocOk : Bool) :
    Option (List Nat) :=
  if allocOk then some (s.take (strnlen s n)) else none

/-- strbuf_append of strings.c (lines 62-73).  The count is computed in
Int as in the C source (buf_capacity - insert_loc - 1 may be negative). -/
def strbuf_append (buf : List Nat) (cap : Nat) (src : List Nat)
    (maxChars : Nat) : List Nat :=
  let srcLen := strnlen src maxChars
  let loc := strnlen buf cap
  let count : Int := min (srcLen : Int) ((cap : Int) - loc - 1)
  let buf1 := if 0 < count then listCopy buf loc (src.take count.toNat)
    else buf
  buf1.set (((loc : Int) + count).toNat) 0

/-- Index of the first occurrence of the two-byte needle n1 n2 in a
modelled C string (strstr with a two-character needle, as used for the
marker of handleHotkey). -/
def strstr2 : List Nat → Nat → Nat → Option Nat
  | [], _, _ => none
  | [_], _, _ => none
  | a :: b :: rest, n1, n2 =>
      if a = n1 ∧ b = n2 then some 0
      else (strstr2 (b :: rest) n1 n2).map (fun i => i + 1)

/-- memset(buffer, 32, len) truncated to the buffer (in-bounds in all
call sites of the source). -/
def memsetSpaces (buf : List Nat) (len : Nat) : List Nat :=
  List.replicate (min len buf.length) 32 ++ buf.drop (min len buf.length)

/-- removeEditLine of mos_editor.c (lines 175-186): blanks the first len
bytes and clears the string (cursor movement and printf are display
only). -/
def removeEditLine (buf : List Nat) (len : Nat) : List Nat :=
  (memsetSpaces buf len).set 0 0

/-- handleHotkey of mos_editor.c (lines 192-238).  slot is
hotkey_strings(fkey); the buffer capacity is the length of the modelled
buffer (the C bufferLength argument).  allocOk models the umm_malloc of
the composition buffer.  The freshly allocated composition buffer is
modelled as zero-filled: the source writes result(0) = 0 and then only
appends, so no byte is read before it is written.  Returns (handled,
new buffer, bell emitted). -/
def handleHotkey (slot : Option (List Nat)) (buf : List Nat)
    (insertPos len : Nat) (allocOk : Bool) : Bool × List Nat × Bool :=
  match slot with
  | none => (false, buf, false)
  | some s =>
    match strstr2 s 37 115 with
    | none =>
        (true, strbuf_append ((removeEditLine buf len).set 0 0) buf.length
          s buf.length, false)
    | some w =>
        -- prefixLength, replacementLength, suffixLength are uint8_t
        if buf.length ≤ w % 256 + cstrlen buf % 256 +
            (s.length - (w + 2)) % 256 + 1 then
          (false, buf, true)
        else if allocOk then
          (true,
           strbuf_append ((removeEditLine buf len).set 0 0) buf.length
             (strbuf_append
               (strbuf_append
                 (strbuf_append
                   (List.replicate (w % 256 + cstrlen buf % 256 +
                     (s.length - (w + 2)) % 256 + 1) 0)
                   (w % 256 + cstrlen buf % 256 +
                     (s.length - (w + 2)) % 256 + 1)
                   s (w % 256))
                 (w % 256 + cstrlen buf % 256 +
                   (s.length - (w + 2)) % 256 + 1)
                 buf (strnlen buf buf.length))
               (w % 256 + cstrlen buf % 256 +
                 (s.length - (w + 2)) % 256 + 1)
               (s.drop (w + 2))
               (w % 256 + cstrlen buf % 256 + (s.length - (w + 2)) % 256 + 1))
             (w % 256 + cstrlen buf % 256 + (s.length - (w + 2)) % 256 + 1),
           false)
        else
          (false, buf, false)

/-! The command history of mos_editor.c (lines 723-798).  The module state
cmd_history / history_size / history_no is a HistState; an entry is
Option (List Nat), none being a stored NULL pointer.  cmd_historyDepth is
declared in mos_editor.h, which is not among the sources, so the depth is
a parameter. -/

structure HistState where
  entries : List (Option (List Nat))
  histNo : Nat
deriving DecidableEq

/-- editHistoryPush of mos_editor.c (lines 734-759).  history_size is the
length of entries.  Returns none when the code would pass a stored NULL
entry to strcmp (undefined behaviour).  Note that the source stores the
result of mos_strndup without checking it for NULL. -/
def editHistoryPush (depth : Nat) (buf : List Nat) (allocOk : Bool)
    (st : HistState) : Option HistState :=
  if 0 < strnlen buf buf.length then
    match st.entries.getLast? with
    | some none => none
    | some (some s) =>
        if cstr buf = s then some st
        else some { st with entries :=
          (if st.entries.length = depth then st.entries.drop 1
           else st.entries) ++ [mos_strndup buf buf.length allocOk] }
    | none =>
        some { st with entries :=
          (if st.entries.length = depth then st.entries.drop 1
           else st.entries) ++ [mos_strndup buf buf.length allocOk] }
  else some st

/-- Iterated editHistoryPush with successful allocations, for the FIFO
eviction property. -/
def editHistoryPushAll (depth : Nat) (bufs : List (List Nat))
    (st : HistState) : Option HistState :=
  match bufs with
  | [] => some st
  | b :: rest => (editHistoryPush depth b true st).bind
      (editHistoryPushAll depth rest)

/-- editHistorySet of mos_editor.c (lines 788-798): replace the edit line
with history entry idx.  Returns (line changed?, new buffer, new history
state); none models strbuf_append reading a stored NULL entry. -/
def editHistorySet (buf : List Nat) (insertPos len : Nat) (idx : Int)
    (st : HistState) : Option (Bool × List Nat × HistState) :=
  if 0 ≤ idx ∧ idx < (st.entries.length : Int) then
    match st.entries.getD idx.toNat none with
    | none => none
    | some s =>
        some (true,
          strbuf_append ((removeEditLine buf len).set 0 0) buf.length s
            (buf.length - 1),
          { st with histNo := idx.toNat })
  else some (false, buf, st)

/-- editHistoryUp of mos_editor.c (lines 761-772). -/
def editHistoryUp (buf : List Nat) (insertPos len : Nat) (st : HistState) :
    Option (Bool × List Nat × HistState) :=
  editHistorySet buf insertPos len
    (if 0 < st.histNo then (st.histNo : Int) - 1
     else if 0 < st.entries.length then 0 else -1) st

/-- editHistoryDown of mos_editor.c (lines 774-786); note the
pre-increment of history_no before the editHistorySet call. -/
def editHistoryDown (buf : List Nat) (insertPos len : Nat)
    (st : HistState) : Option (Bool × List Nat × HistState) :=
  if st.histNo < st.entries.length then
    if st.histNo = st.entries.length - 1 then
      some (true, removeEditLine buf len,
        { st with histNo := st.entries.length })
    else
      editHistorySet buf insertPos len ((st.histNo : Int) + 1)
        { st with histNo := st.histNo + 1 }
  else some (false, buf, st)

/-! The tab completion engine of mos_editor.c (lines 240-524).  The
expansion accumulator array lives in struct tab_expansion_context, whose
declaration (mos_editor.h) is not among the sources, so its size expCap
is a parameter.  The candidate vector collected in show-all mode feeds
only the on-screen listing (print_expansion_candidates) and is therefore
not part of the verified state; an out-of-memory there only changes what
is printed. -/

/-- C toupper in the default locale, on a byte. -/
def toupperB (c : Nat) : Nat := if 97 ≤ c ∧ c ≤ 122 then c - 32 else c

/-- One candidate reported to notify_tab_expansion: its type, the full
expansion text and the suffix beyond the already-typed portion (the
fullExpansionLen / expansionLen arguments are the list lengths). -/
structure NotifyEv where
  etype : Nat
  full : List Nat
  suffix : List Nat
deriving DecidableEq

/-- The verified part of struct tab_expansion_context: the match counter
and the common-prefix accumulator array. -/
structure TabCtx where
  num_matches : Nat
  expansion : List Nat
deriving DecidableEq

/-- The truncation loop of notify_tab_expansion (lines 273-278), scanning
the accumulator string (first argument) against the candidate suffix:
index of the first position where the suffix ends or differs
case-insensitively, if any. -/
def truncIdxGo : List Nat → List Nat → Nat → Option Nat
  | [], _, _ => none
  | a :: as, suf, j =>
      if nth suf 0 = 0 ∨ toupperB a ≠ toupperB (nth suf 0) then some j
      else truncIdxGo as (suf.drop 1) (j + 1)

/-- notify_tab_expansion of mos_editor.c (lines 242-281), restricted to
the verified state (the show-all candidate recording is display only). -/
def notify_tab_expansion (ev : NotifyEv) (ctx : TabCtx) : TabCtx :=
  if ctx.num_matches = 0 then
    { ctx with
      expansion := (listCopy ctx.expansion 0
          (ev.suffix.take (min ev.suffix.length (ctx.expansion.length - 1)))).set
        (min ev.suffix.length (ctx.expansion.length - 1)) 0,
      num_matches := ctx.num_matches + 1 }
  else
    match truncIdxGo (cstr ctx.expansion) ev.suffix 0 with
    | some j =>
        { ctx with
          expansion := ctx.expansion.set j 0
          num_matches := ctx.num_matches + 1 }
    | none => { ctx with num_matches := ctx.num_matches + 1 }

/-- The longest case-insensitive common prefix of an accumulator string
and a candidate suffix, original case taken from the accumulator. -/
def lcpCI : List Nat → List Nat → List Nat
  | [], _ => []
  | _ :: _, [] => []
  | a :: as, b :: bs => if toupperB a = toupperB b then a :: lcpCI as bs else []

/-- strncasecmp(a, b, n) == 0 on modelled buffers (reads past the list
give the terminator). -/
def strncaseeq : List Nat → List Nat → Nat → Bool
  | _, _, 0 => true
  | a, b, n + 1 =>
      if toupperB (nth a 0) = toupperB (nth b 0) then
        (if nth a 0 = 0 then true else strncaseeq (a.drop 1) (b.drop 1) n)
      else false

/-- try_tab_expand_internal_cmd of mos.c (part_000 lines 1932-1941): one
candidate per command-table entry whose name matches the first
cmdline_insertpos bytes of the command line case-insensitively; the
reported suffix is the name beyond the typed portion. -/
def internalCmdEvents (table : List (List Nat)) (cmdline : List Nat)
    (insertpos : Nat) : List NotifyEv :=
  (table.filter (fun name => strncaseeq cmdline name insertpos)).map
    (fun name => { etype := 0, full := name,
                   suffix := name.drop insertpos })

/-- find_first_nonspace_chr of mos_editor.c (lines 400-405). -/
def find_first_nonspace_chr : List Nat → Nat → Nat
  | l, 0 => nth l 0
  | [], _ + 1 => 0
  | b :: rest, n + 1 =>
      if b = 32 then find_first_nonspace_chr rest n else b

/-- slice_strrchr of mos_editor.c (lines 321-327): last index below len
holding the byte c. -/
def slice_strrchr (l : List Nat) (len : Nat) (c : Nat) : Option Nat :=
  ((List.range len).filter (fun i => nth l i == c)).getLast?

/-- strbuf_insert of strings.c (lines 39-57).  Counts are C ints (may be
negative); the returned count is the number of characters inserted, which
the caller stores back into an int. -/
def strbuf_insert (buf : List Nat) (cap : Nat) (src : List Nat)
    (loc : Nat) : Int × List Nat :=
  let srcLen : Int := cstrlen src
  let tailLen : Int := cstrlen (buf.drop loc) + 1
  let count1 : Int := min tailLen ((cap : Int) - loc - srcLen - 1)
  let buf1 := if 0 < count1 then
      listCopy buf (loc + srcLen.toNat) ((buf.drop loc).take count1.toNat)
    else buf
  let buf2 := buf1.set (((loc : Int) + srcLen + count1).toNat) 0
  let count2 : Int := min srcLen ((cap : Int) - loc - 1)
  let buf3 := if 0 < count2 then listCopy buf2 loc (src.take count2.toNat)
    else buf2
  (count2, buf3)

/-- do_tab_complete of mos_editor.c (lines 459-524).  The filesystem
candidate enumerations (try_tab_expand_argument and
try_tab_expand_bin_name) are oracles: argEvents are the candidates the
filesystem would report in argument mode, fsEvents the .bin candidates in
command mode.  oobByte is the byte the source reads at expansion(-1)
(line 500) when a single match added zero characters: that read is out of
the expansion array's bounds, into adjacent struct memory, so its value
is not determined by the program.  Returns (buffer, insert position,
tab_complete_state_showall, final context). -/
def do_tab_complete (table : List (List Nat))
    (argEvents fsEvents : List NotifyEv) (expCap : Nat) (oobByte : Nat)
    (buf : List Nat) (insertPos : Nat) (showall : Bool) :
    List Nat × Nat × Bool × TabCtx :=
  let ctx0 : TabCtx := { num_matches := 0,
                         expansion := List.replicate expCap 0 }
  let first_char := find_first_nonspace_chr buf buf.length
  let events :=
    if first_char = 46 ∨ first_char = 47 ∨
        (slice_strrchr buf insertPos 32).isSome then
      argEvents
    else
      internalCmdEvents table buf insertPos ++ fsEvents
  let ctx := events.foldl (fun c e => notify_tab_expansion e c) ctx0
  let num_chars_added := cstrlen ctx.expansion
  let showall2 := if ctx.num_matches > 1 ∧ num_chars_added = 0 then true
    else showall
  if num_chars_added > 0 ∨ (num_chars_added = 0 ∧ ctx.num_matches = 1) then
    let lastChar := if num_chars_added = 0 then oobByte
      else nth ctx.expansion (num_chars_added - 1)
    let exp2 := if ctx.num_matches = 1 ∧ lastChar ≠ 47 then
        strbuf_append ctx.expansion expCap [32] 1
      else ctx.expansion
    let ins := strbuf_insert buf buf.length exp2 insertPos
    (ins.2, ((insertPos : Int) + ins.1).toNat, showall2, ctx)
  else
    (buf, insertPos, showall2, ctx)

/-! The line editor loop of mos_editor.c (mos_EDITLINE, lines 534-721).
Keyboard events are consumed from a list; each event also carries the
responses of the external collaborators consulted while handling it (the
allocator and the filesystem), so the model is a deterministic function
of the event list. -/

/-- The virtual keys distinguished by the switch of mos_EDITLINE; every
other vkey falls into the default case. -/
inductive VKey where
  | VK_HOME
  | VK_END
  | VK_PAGEUP
  | VK_PAGEDOWN
  | VK_LEFT
  | VK_KP_LEFT
  | VK_F (i : Fin 12)
  | VK_OTHER
deriving DecidableEq

/-- One keyboard key-down event, with the oracle responses of the
collaborators used while processing it. -/
structure KEvent where
  vkey : VKey
  ascii : Nat
  pushAllocOk : Bool
  hotkeyAllocOk : Bool
  argEvents : List NotifyEv
  fsEvents : List NotifyEv
  oobByte : Nat
deriving DecidableEq

/-- The per-iteration editor state of mos_EDITLINE. -/
structure EdState where
  buffer : List Nat
  insertPos : Nat
  hist : HistState
  showall : Bool
  keyr : Nat
deriving DecidableEq

/-- The environment fixed across one mos_EDITLINE call: the hotkey table,
the internal command table, the expansion buffer size, the history depth
and the flags argument. -/
structure EdEnv where
  hotkeys : Fin 12 → Option (List Nat)
  table : List (List Nat)
  expCap : Nat
  depth : Nat
  flags : Nat

/-- The trailing-spaces loop of deleteWord (mos_editor.c lines 137-141);
returns the buffer and the decremented insert position. -/
def delSpacesLoop : List Nat → Nat → Nat → List Nat × Nat
  | buf, 0, _ => (buf, 0)
  | buf, p + 1, len =>
      if nth buf p = 32 then
        delSpacesLoop (deleteCharacter buf (p + 1) len).2 p len
      else (buf, p + 1)

/-- The word loop of deleteWord (mos_editor.c lines 143-147). -/
def delWordLoop : List Nat → Nat → Nat → List Nat × Nat
  | buf, 0, _ => (buf, 0)
  | buf, p + 1, len =>
      if nth buf p ≠ 32 then
        delWordLoop (deleteCharacter buf (p + 1) len).2 p len
      else (buf, p + 1)

/-- deleteWord of mos_editor.c (lines 133-149): the caller's
insertPos -= num_deleted is the returned position. -/
def deleteWord (buf : List Nat) (insertPos len : Nat) : List Nat × Nat :=
  let r1 := delSpacesLoop buf insertPos len
  delWordLoop r1.1 r1.2 len

/-- The result of handling one key before the history block: the mutable
locals of the loop body of mos_EDITLINE. -/
structure HandleResult where
  buffer : List Nat
  insertPos : Nat
  len : Nat
  showall : Bool
  keyr : Nat
  historyAction : Nat
deriving DecidableEq

/-- The ASCII part of the key switch of mos_EDITLINE (lines 623-687),
reached by the default case and by the fall-through after a handled
hotkey. -/
def asciiHandle (env : EdEnv) (ev : KEvent) (keya : Nat)
    (buffer : List Nat) (insertPos len : Nat) (showall : Bool) :
    HandleResult :=
  if keya = 0 then ⟨buffer, insertPos, len, showall, 0, 0⟩
  else if 0x20 ≤ keya ∧ keya ≠ 0x7F then
    let r := insertCharacter buffer keya insertPos
    ⟨r.2, if r.1 then insertPos + 1 else insertPos, len, showall, 0, 0⟩
  else if keya = 0x1 then ⟨buffer, 0, len, showall, 0, 0⟩
  else if keya = 0x2 then
    ⟨buffer, if 0 < insertPos then insertPos - 1 else insertPos, len,
      showall, 0, 0⟩
  else if keya = 0x5 then
    ⟨buffer, if insertPos < len then len else insertPos, len, showall,
      0, 0⟩
  else if keya = 0x9 then
    if env.flags.testBit 1 then
      let r := do_tab_complete env.table ev.argEvents ev.fsEvents
        env.expCap ev.oobByte buffer insertPos showall
      ⟨r.1, r.2.1, cstrlen r.1, r.2.2.1, 0, 0⟩
    else ⟨buffer, insertPos, len, showall, 0, 0⟩
  else if keya = 0x0A then ⟨buffer, insertPos, len, showall, 0, 3⟩
  else if keya = 0x0B then ⟨buffer, insertPos, len, showall, 0, 2⟩
  else if keya = 0x0D then ⟨buffer, insertPos, len, showall, 0x0D, 1⟩
  else if keya = 0x0E then ⟨buffer, insertPos, len, showall, 0, 3⟩
  else if keya = 0x10 then ⟨buffer, insertPos, len, showall, 0, 2⟩
  else if keya = 0x6 ∨ keya = 0x15 then
    ⟨buffer, if insertPos < len then insertPos + 1 else insertPos, len,
      showall, 0, 0⟩
  else if keya = 0x17 then
    let r := deleteWord buffer insertPos len
    ⟨r.1, r.2, len, showall, 0, 0⟩
  else if keya = 0x1B then ⟨buffer, insertPos, len, showall, 0x1B, 0⟩
  else if keya = 0x08 ∨ keya = 0x7F then
    let r := deleteCharacter buffer insertPos len
    ⟨r.2, if r.1 then insertPos - 1 else insertPos, len, showall, 0, 0⟩
  else ⟨buffer, insertPos, len, showall, 0, 0⟩

/-- The key switch of the loop body of mos_EDITLINE (lines 569-687): the
per-virtual-key dispatch, before the history block. -/
def keySwitch (env : EdEnv) (ev : KEvent) (st : EdState) (len : Nat)
    (showall : Bool) : HandleResult :=
  match ev.vkey with
  | .VK_HOME => ⟨st.buffer, 0, len, showall, 0, 0⟩
  | .VK_END => ⟨st.buffer,
      if st.insertPos < len then len else st.insertPos, len, showall,
      0, 0⟩
  | .VK_PAGEUP => ⟨st.buffer, st.insertPos, len, showall, 0, 2⟩
  | .VK_PAGEDOWN => ⟨st.buffer, st.insertPos, len, showall, 0, 3⟩
  | .VK_LEFT => ⟨st.buffer,
      if 0 < st.insertPos then st.insertPos - 1 else st.insertPos, len,
      showall, 0, 0⟩
  | .VK_KP_LEFT => ⟨st.buffer,
      if 0 < st.insertPos then st.insertPos - 1 else st.insertPos, len,
      showall, 0, 0⟩
  | .VK_F i =>
      if ¬ env.flags.testBit 2 then
        let h := handleHotkey (env.hotkeys i) st.buffer st.insertPos len
          ev.hotkeyAllocOk
        if h.1 then
          asciiHandle env ev 0x0D h.2.1 (cstrlen h.2.1) (cstrlen h.2.1)
            showall
        else ⟨st.buffer, st.insertPos, len, showall, 0, 0⟩
      else ⟨st.buffer, st.insertPos, len, showall, 0, 0⟩
  | .VK_OTHER =>
      asciiHandle env ev ev.ascii st.buffer st.insertPos len showall

/-- The history block at the end of the loop body of mos_EDITLINE (lines
689-698), applied to the outputs of the key switch; none models the
undefined behaviour of a stored NULL history entry reaching strcmp. -/
def histBlock (env : EdEnv) (ev : KEvent) (st : EdState)
    (t : HandleResult) : Option EdState :=
  if ¬ env.flags.testBit 3 then
    if t.historyAction = 1 then
      (editHistoryPush env.depth t.buffer ev.pushAllocOk st.hist).map
        (fun h => ⟨t.buffer, t.insertPos, h, t.showall, t.keyr⟩)
    else if t.historyAction = 2 then
      (editHistoryUp t.buffer t.insertPos t.len st.hist).map
        (fun r =>
          if r.1 then ⟨r.2.1, cstrlen r.2.1, r.2.2, t.showall, t.keyr⟩
          else ⟨r.2.1, t.insertPos, r.2.2, t.showall, t.keyr⟩)
    else if t.historyAction = 3 then
      (editHistoryDown t.buffer t.insertPos t.len st.hist).map
        (fun r =>
          if r.1 then ⟨r.2.1, cstrlen r.2.1, r.2.2, t.showall, t.keyr⟩
          else ⟨r.2.1, t.insertPos, r.2.2, t.showall, t.keyr⟩)
    else some ⟨t.buffer, t.insertPos, st.hist, t.showall, t.keyr⟩
  else some ⟨t.buffer, t.insertPos, st.hist, t.showall, t.keyr⟩

/-- One iteration of the event loop of mos_EDITLINE (lines 561-710),
entered with keyr = 0; none models an iteration that hits undefined
behaviour. -/
def edStep (env : EdEnv) (ev : KEvent) (st : EdState) : Option EdState :=
  let len := cstrlen st.buffer
  let showall := if ev.ascii ≠ 9 then false else st.showall
  histBlock env ev st (keySwitch env ev st len showall)

/-- The possible outcomes of running the editor on a finite event list. -/
inductive EditOutcome where
  | returned (key : Nat) (st : EdState)
  | starved (st : EdState)
  | crashed
deriving DecidableEq

/-- The while loop of mos_EDITLINE: runs until keyr becomes nonzero,
starves when the event list is exhausted, crashes on undefined
behaviour. -/
def runEdit (env : EdEnv) : List KEvent → EdState → EditOutcome
  | [], st => .starved st
  | e :: rest, st =>
      match edStep env e st with
      | none => .crashed
      | some st' =>
          if st'.keyr = 0 then runEdit env rest st'
          else .returned st'.keyr st'

/-- mos_EDITLINE of mos_editor.c (lines 534-721): initialization (clear
flag, insert position, history_no := history_size, show-all reset) and
the event loop.  hist0 is the entries of the process-wide cmd_history at
entry.  The post-loop cursor repositioning is display only. -/
def mos_EDITLINE (env : EdEnv) (events : List KEvent) (buffer : List Nat)
    (hist0 : List (Option (List Nat))) : EditOutcome :=
  let buf0 := if env.flags.testBit 0 then buffer.set 0 0 else buffer
  let pos0 := if env.flags.testBit 0 then 0 else cstrlen buffer
  runEdit env events ⟨buf0, pos0, ⟨hist0, hist0.length⟩, false, 0⟩

/-! Basic lemmas about the string primitives. -/

theorem nth_set_self (l : List Nat) (i v : Nat) (h : i < l.length) :
    nth (l.set i v) i = v := by
  unfold nth
  induction l generalizing i with
  | nil => simp at h
  | cons a rest ih =>
    cases i with
    | zero => rfl
    | succ j => simpa using ih j (by simpa using h)

theorem nth_set_other (l : List Nat) (i j v : Nat) (h : i ≠ j) :
    nth (l.set i v) j = nth l j := by
  unfold nth
  induction l generalizing i j with
  | nil => rfl
  | cons a rest ih =>
    cases i with
    | zero => cases j with
      | zero => exact absurd rfl h
      | succ j' => rfl
    | succ i' =>
      cases j with
      | zero => rfl
      | succ j' => simpa using ih i' j' (by omega)

theorem strnlenAux_le (l : List Nat) (n : Nat) :
    strnlenAux l n ≤ min n l.length := by
  induction l generalizing n with
  | nil => simp [strnlenAux]
  | cons b rest ih =>
    cases n with
    | zero => simp [strnlenAux]
    | succ m =>
      by_cases hb : b = 0
      · simp [strnlenAux, hb]
      · have := ih m
        simp only [strnlenAux, hb, if_false, List.length_cons]
        omega

theorem strnlenAux_append_zero (s rest : List Nat) (h : 0 ∉ s) (n : Nat)
    (hn : s.length ≤ n) :
    strnlenAux (s ++ 0 :: rest) n = s.length := by
  induction s generalizing n with
  | nil =>
    cases n with
    | zero => simp [strnlenAux]
    | succ m => simp [strnlenAux]
  | cons a s' ih =>
    cases n with
    | zero => simp at hn
    | succ m =>
      have ha : a ≠ 0 := by intro h0; exact h (by simp [h0])
      have hs' : 0 ∉ s' := fun hmem => h (List.mem_cons_of_mem _ hmem)
      simp only [List.cons_append, strnlenAux, ha, if_false, List.length_cons,
        List.append_eq]
      rw [ih hs' m (by simpa using hn)]

/-- Decompose a null-terminated buffer as string ++ 0 :: junk. -/
theorem nullTerminated_decomp (buf : List Nat) (h : NullTerminated buf) :
    ∃ s rest, buf = s ++ 0 :: rest ∧ 0 ∉ s ∧ s.length = cstrlen buf := by
  unfold NullTerminated at h
  induction buf with
  | nil => simp [cstrlen, strnlenAux] at h
  | cons b tail ih =>
    by_cases hb : b = 0
    · exact ⟨[], tail, by simp [hb], by simp,
        by simp [cstrlen, strnlenAux, hb]⟩
    · have htail : cstrlen tail < tail.length := by
        have := h
        simp only [cstrlen, strnlenAux, List.length_cons, hb, if_false] at this
        unfold cstrlen
        omega
      obtain ⟨s, rest, heq, hmem, hlen⟩ := ih htail
      refine ⟨b :: s, rest, by simp [heq], ?_, ?_⟩
      · intro hc
        rcases List.mem_cons.mp hc with h0 | h0
        · exact hb h0.symm
        · exact hmem h0
      · unfold cstrlen at hlen ⊢
        simp only [strnlenAux, List.length_cons, hb, if_false]
        omega

theorem cstrlen_append_zero (s rest : List Nat) (h : 0 ∉ s) :
    cstrlen (s ++ 0 :: rest) = s.length := by
  unfold cstrlen
  exact strnlenAux_append_zero s rest h _ (by simp)

theorem cstr_append_zero (s rest : List Nat) (h : 0 ∉ s) :
    cstr (s ++ 0 :: rest) = s := by
  unfold cstr
  rw [cstrlen_append_zero s rest h]
  simp [List.take_append_eq_append_take]

theorem nullTerminated_append_zero (s rest : List Nat) (h : 0 ∉ s) :
    NullTerminated (s ++ 0 :: rest) := by
  unfold NullTerminated
  rw [cstrlen_append_zero s rest h]
  simp

theorem nth_append_right (s l : List Nat) (i : Nat) :
    nth (s ++ l) (s.length + i) = nth l i := by
  induction s with
  | nil => simp [nth]
  | cons a s' ih =>
    simpa [nth, Nat.succ_add] using ih

theorem set_append_right (s l : List Nat) (i v : Nat) :
    (s ++ l).set (s.length + i) v = s ++ l.set i v := by
  induction s with
  | nil => simp
  | cons a s' ih =>
    simpa [Nat.succ_add] using ih

theorem shiftRightAux_length (buf : List Nat) (p : Nat) (k : Nat) :
    (shiftRightAux buf p k).length = buf.length := by
  induction k generalizing buf with
  | zero => simp [shiftRightAux]
  | succ k ih => simp [shiftRightAux, ih]

/-- The descending shift loop moves the block at positions p..p+k one cell
to the right, duplicating its first element at position p. -/
theorem shiftRightAux_spec (s₁ : List Nat) :
    ∀ (k a : Nat) (tl : List Nat) (y : Nat) (rest : List Nat),
      tl.length = k →
      shiftRightAux (s₁ ++ a :: (tl ++ y :: rest)) s₁.length k =
        s₁ ++ a :: a :: (tl ++ rest) := by
  intro k
  induction k with
  | zero =>
    intro a tl y rest htl
    have : tl = [] := List.length_eq_zero.mp htl
    subst this
    show (_ : List Nat).set _ (nth _ _) = _
    have h1 : nth (s₁ ++ a :: ([] ++ y :: rest)) s₁.length = a := by
      simpa using nth_append_right s₁ (a :: y :: rest) 0
    rw [h1]
    calc (s₁ ++ a :: ([] ++ y :: rest)).set (s₁.length + 1) a
        = s₁ ++ (a :: y :: rest).set 1 a := by
          simpa using set_append_right s₁ (a :: y :: rest) 1 a
      _ = s₁ ++ a :: a :: ([] ++ rest) := by simp
  | succ k ih =>
    intro a tl y rest htl
    rcases List.eq_nil_or_concat tl with rfl | ⟨tl', b, rfl⟩
    · simp at htl
    · simp only [List.concat_eq_append] at htl ⊢
      have hlen' : tl'.length = k := by
        simp only [List.length_append, List.length_cons, List.length_nil]
          at htl
        omega
      have hL : (s₁ ++ a :: tl').length = s₁.length + k + 1 := by
        simp only [List.length_append, List.length_cons, hlen']
        omega
      have hre : s₁ ++ a :: ((tl' ++ [b]) ++ y :: rest) =
          (s₁ ++ a :: tl') ++ (b :: y :: rest) := by simp
      simp only [shiftRightAux]
      have h1 : nth (s₁ ++ a :: ((tl' ++ [b]) ++ y :: rest))
          (s₁.length + k + 1) = b := by
        rw [hre, ← hL]
        simpa using nth_append_right (s₁ ++ a :: tl') (b :: y :: rest) 0
      rw [h1]
      have h2 : (s₁ ++ a :: ((tl' ++ [b]) ++ y :: rest)).set
          (s₁.length + k + 2) b = s₁ ++ a :: (tl' ++ b :: (b :: rest)) := by
        rw [hre]
        have hidx : s₁.length + k + 2 = (s₁ ++ a :: tl').length + 1 := by
          rw [hL]
        rw [hidx, set_append_right (s₁ ++ a :: tl') (b :: y :: rest) 1 b]
        simp
      rw [h2, ih a tl' b (b :: rest) hlen']
      simp

theorem shiftLeftAux_length (buf : List Nat) (i : Nat) (k : Nat) :
    (shiftLeftAux buf i k).length = buf.length := by
  induction k generalizing buf i with
  | zero => simp [shiftLeftAux]
  | succ k ih => simp [shiftLeftAux, ih]

theorem getLastD_append_single (l : List Nat) (b x : Nat) :
    (l ++ [b]).getLastD x = b := by
  induction l generalizing x with
  | nil => rfl
  | cons a l' ih =>
    rw [List.cons_append, List.getLastD_cons]
    exact ih a

/-- The ascending shift loop moves the block at positions i+1..i+k one
cell to the left, leaving a duplicate of its last element at position
i+k. -/
theorem shiftLeftAux_spec :
    ∀ (k : Nat) (s₁ : List Nat) (x : Nat) (seg rest : List Nat),
      seg.length = k →
      shiftLeftAux (s₁ ++ x :: (seg ++ rest)) s₁.length k =
        s₁ ++ seg ++ seg.getLastD x :: rest := by
  intro k
  induction k with
  | zero =>
    intro s₁ x seg rest hseg
    have : seg = [] := List.length_eq_zero.mp hseg
    subst this
    simp [shiftLeftAux]
  | succ k ih =>
    intro s₁ x seg rest hseg
    cases seg with
    | nil => simp at hseg
    | cons b seg' =>
      have hlen' : seg'.length = k := by simpa using hseg
      show shiftLeftAux ((s₁ ++ x :: (b :: seg' ++ rest)).set s₁.length
          (nth (s₁ ++ x :: (b :: seg' ++ rest)) (s₁.length + 1)))
          (s₁.length + 1) k = _
      have h1 : nth (s₁ ++ x :: (b :: seg' ++ rest)) (s₁.length + 1) = b := by
        simpa using nth_append_right s₁ (x :: b :: (seg' ++ rest)) 1
      rw [h1]
      have h2 : (s₁ ++ x :: (b :: seg' ++ rest)).set s₁.length b =
          (s₁ ++ [b]) ++ b :: (seg' ++ rest) := by
        have := set_append_right s₁ (x :: (b :: seg' ++ rest)) 0 b
        simp only [Nat.add_zero] at this
        rw [this]
        simp
      rw [h2]
      have h3 : (s₁ ++ [b]).length = s₁.length + 1 := by simp
      rw [← h3, ih (s₁ ++ [b]) b seg' rest hlen']
      rw [List.getLastD_cons]
      simp

theorem mem_of_nth_zero (l : List Nat) (i : Nat) (hi : i < l.length)
    (h0 : nth l i = 0) : 0 ∈ l := by
  induction l generalizing i with
  | nil => simp at hi
  | cons b rest ih =>
    cases i with
    | zero =>
      simp only [nth, List.getD] at h0
      simp at h0
      simp [h0]
    | succ j =>
      have := ih j (by simpa using hi) (by simpa [nth] using h0)
      simp [this]

theorem nullTerminated_of_mem (l : List Nat) (h : 0 ∈ l) :
    NullTerminated l := by
  unfold NullTerminated cstrlen
  induction l with
  | nil => simp at h
  | cons b rest ih =>
    by_cases hb : b = 0
    · simp [strnlenAux, hb]
    · have hr : 0 ∈ rest := by
        rcases List.mem_cons.mp h with h0 | h0
        · exact absurd h0.symm hb
        · exact h0
      have := ih hr
      simp only [strnlenAux, List.length_cons, hb, if_false]
      omega

theorem nth_cstrlen_eq_zero (buf : List Nat) (h : NullTerminated buf) :
    nth buf (cstrlen buf) = 0 := by
  obtain ⟨s, rest, heq, hmem, hlen⟩ := nullTerminated_decomp buf h
  subst heq
  rw [cstrlen_append_zero s rest hmem]
  simpa using nth_append_right s (0 :: rest) 0

/-- The characterization of a successful insertCharacter on a decomposed
buffer: the tail from the insert position is shifted right and the
character is written at the insert position. -/
theorem insertCharacter_success (s₁ s₂ : List Nat) (c r0 : Nat)
    (rest : List Nat) (h : 0 ∉ s₁ ++ s₂) :
    insertCharacter (s₁ ++ (s₂ ++ 0 :: r0 :: rest)) c s₁.length =
      (true, s₁ ++ c :: (s₂ ++ 0 :: rest)) := by
  cases s₂ with
  | nil =>
    have hmem : 0 ∉ s₁ := by simpa using h
    have hlen : strnlen (s₁ ++ ([] ++ 0 :: r0 :: rest))
        (s₁ ++ ([] ++ 0 :: r0 :: rest)).length = s₁.length := by
      show cstrlen _ = _
      simpa using cstrlen_append_zero s₁ (r0 :: rest) hmem
    unfold insertCharacter
    rw [hlen]
    rw [if_pos (by simp only [List.nil_append, List.length_append,
      List.length_cons]; omega)]
    rw [if_neg (by omega)]
    rw [Nat.sub_self]
    have hs := shiftRightAux_spec s₁ 0 0 [] r0 rest rfl
    simp only [List.nil_append] at hs ⊢
    rw [hs]
    have hset := set_append_right s₁ (0 :: 0 :: rest) 0 c
    simp only [Nat.add_zero] at hset
    rw [hset]
    simp
  | cons a s₂' =>
    have hlen : strnlen (s₁ ++ (a :: s₂' ++ 0 :: r0 :: rest))
        (s₁ ++ (a :: s₂' ++ 0 :: r0 :: rest)).length =
        s₁.length + s₂'.length + 1 := by
      show cstrlen _ = _
      rw [show s₁ ++ (a :: s₂' ++ 0 :: r0 :: rest) =
        (s₁ ++ a :: s₂') ++ 0 :: (r0 :: rest) from by simp]
      rw [cstrlen_append_zero _ _ h]
      simp only [List.length_append, List.length_cons]
      omega
    unfold insertCharacter
    rw [hlen]
    rw [if_pos (by simp only [List.length_append, List.length_cons]; omega)]
    rw [if_neg (by omega)]
    rw [show s₁.length + s₂'.length + 1 - s₁.length = s₂'.length + 1 from
      by omega]
    rw [show s₁ ++ (a :: s₂' ++ 0 :: r0 :: rest) =
      s₁ ++ a :: ((s₂' ++ [0]) ++ r0 :: rest) from by simp]
    rw [shiftRightAux_spec s₁ (s₂'.length + 1) a (s₂' ++ [0]) r0 rest
      (by simp)]
    have hset := set_append_right s₁ (a :: a :: ((s₂' ++ [0]) ++ rest)) 0 c
    simp only [Nat.add_zero] at hset
    show (true, (s₁ ++ a :: a :: ((s₂' ++ [0]) ++ rest)).set s₁.length c) =
      (true, s₁ ++ c :: (a :: s₂' ++ 0 :: rest))
    rw [hset]
    simp

/-- insertCharacter preserves null-termination and the buffer capacity,
for every character and every (even invalid) insert position. -/
theorem insertCharacter_preserves (buf : List Nat) (c p : Nat)
    (h : NullTerminated buf) :
    NullTerminated (insertCharacter buf c p).2 ∧
      (insertCharacter buf c p).2.length = buf.length := by
  by_cases hroom : strnlen buf buf.length + 1 < buf.length
  · by_cases hp : strnlen buf buf.length < p
    · -- insert position beyond the string: no shift, only the set
      unfold insertCharacter
      rw [if_pos hroom, if_pos hp]
      refine ⟨?_, by simp⟩
      apply nullTerminated_of_mem
      apply mem_of_nth_zero _ (cstrlen buf) (by rw [List.length_set]; exact h)
      have hne : p ≠ cstrlen buf := by
        intro he
        rw [he] at hp
        exact absurd hp (lt_irrefl _)
      rw [nth_set_other buf p (cstrlen buf) c hne]
      exact nth_cstrlen_eq_zero buf h
    · -- insert position within the string: use the characterization
      obtain ⟨s, rest, heq, hmem, hlen⟩ := nullTerminated_decomp buf h
      rw [show strnlen buf buf.length = cstrlen buf from rfl] at hp hroom
      have hple : p ≤ s.length := by rw [hlen]; omega
      rcases rest with _ | ⟨r0, rest'⟩
      · exfalso
        have hx : cstrlen buf = s.length := by
          rw [heq]
          exact cstrlen_append_zero s [] hmem
        rw [hx, heq] at hroom
        simp at hroom
      · have hmem2 : 0 ∉ s.take p ++ s.drop p := by
          rw [List.take_append_drop]
          exact hmem
        have htake : (s.take p).length = p := by
          rw [List.length_take]
          omega
        have heq2 : buf = s.take p ++ (s.drop p ++ 0 :: r0 :: rest') := by
          rw [heq, ← List.append_assoc, List.take_append_drop]
        have hchar := insertCharacter_success (s.take p) (s.drop p) c r0
          rest' hmem2
        rw [htake, ← heq2] at hchar
        rw [hchar]
        constructor
        · apply nullTerminated_of_mem
          simp
        · rw [heq2]
          simp only [List.length_append, List.length_cons]
          omega
  · unfold insertCharacter
    rw [if_neg hroom]
    exact ⟨h, rfl⟩

theorem insertSeq_preserves (ops : List (Nat × Nat)) (buf : List Nat)
    (h : NullTerminated buf) :
    NullTerminated (insertSeq ops buf) ∧
      (insertSeq ops buf).length = buf.length := by
  induction ops generalizing buf with
  | nil => exact ⟨h, rfl⟩
  | cons op rest ih =>
    have h1 := insertCharacter_preserves buf op.1 op.2 h
    have h2 := ih (insertCharacter buf op.1 op.2).2 h1.1
    unfold insertSeq at h2 ⊢
    simp only [List.foldl_cons]
    exact ⟨h2.1, h2.2.trans h1.2⟩

/-- C1: insertCharacter on a null-terminated buffer of capacity N refuses
the insertion (returns false with the buffer unchanged) exactly when the
string length is N-1; otherwise it shifts the tail right and writes the
character at the insert position; and after any sequence of insertions
the string length never exceeds N-1 and the byte at index length is 0. -/
theorem C1_lineBuffer_insert_invariants (buf : List Nat) (c p : Nat)
    (hnt : NullTerminated buf) :
    ((insertCharacter buf c p).1 = false ↔ cstrlen buf = buf.length - 1)
    ∧ ((insertCharacter buf c p).1 = false → (insertCharacter buf c p).2 = buf)
    ∧ (∀ s₁ s₂ r0 rest, buf = s₁ ++ (s₂ ++ 0 :: r0 :: rest) → 0 ∉ s₁ ++ s₂ →
        p = s₁.length → (insertCharacter buf c p).2 = s₁ ++ c :: (s₂ ++ 0 :: rest))
    ∧ (∀ ops : List (Nat × Nat),
        cstrlen (insertSeq ops buf) ≤ buf.length - 1 ∧
          nth (insertSeq ops buf) (cstrlen (insertSeq ops buf)) = 0) := by
  have hx : strnlen buf buf.length = cstrlen buf := rfl
  have hlt : cstrlen buf < buf.length := hnt
  refine ⟨?_, ?_, ?_, ?_⟩
  · unfold insertCharacter
    rw [hx]
    by_cases hroom : cstrlen buf + 1 < buf.length
    · rw [if_pos hroom]
      simp only
      constructor
      · intro hf
        exact absurd hf (by simp)
      · intro he
        omega
    · rw [if_neg hroom]
      simp only
      constructor
      · intro _
        omega
      · intro _
        trivial
  · unfold insertCharacter
    rw [hx]
    by_cases hroom : cstrlen buf + 1 < buf.length
    · rw [if_pos hroom]
      intro hf
      exact absurd hf (by simp)
    · rw [if_neg hroom]
      intro _
      rfl
  · intro s₁ s₂ r0 rest heq hm hp
    subst hp
    rw [heq]
    rw [insertCharacter_success s₁ s₂ c r0 rest hm]
  · intro ops
    have hI := insertSeq_preserves ops buf hnt
    refine ⟨?_, nth_cstrlen_eq_zero _ hI.1⟩
    have := hI.1
    unfold NullTerminated at this
    rw [hI.2] at this
    omega

theorem C1_lineBuffer_insert_invariants_witness :
    NullTerminated [65, 0, 0] ∧
      ((insertCharacter [65, 0, 0] 66 1).1 = false ↔
        cstrlen [65, 0, 0] = [65, 0, 0].length - 1) ∧
      cstrlen (insertSeq [(66, 1), (67, 0)] [65, 0, 0]) ≤
        [65, 0, 0].length - 1 :=
  ⟨by decide,
   (C1_lineBuffer_insert_invariants [65, 0, 0] 66 1 (by decide)).1,
   ((C1_lineBuffer_insert_invariants [65, 0, 0] 66 1 (by decide)).2.2.2
     [(66, 1), (67, 0)]).1⟩

/-- C10: a successful insertCharacter of a nonzero character c at a valid
position p, followed by deleteCharacter at position p+1 with the new
string length, restores the original buffer string contents. -/
theorem C10_insert_delete_roundtrip (buf : List Nat) (c p : Nat)
    (hnt : NullTerminated buf) (hp : p ≤ cstrlen buf) (hc : c ≠ 0)
    (hins : (insertCharacter buf c p).1 = true) :
    (deleteCharacter (insertCharacter buf c p).2 (p + 1)
        (cstrlen buf + 1)).1 = true ∧
      cstr (deleteCharacter (insertCharacter buf c p).2 (p + 1)
        (cstrlen buf + 1)).2 = cstr buf := by
  obtain ⟨s, rest, heq, hmem, hlen⟩ := nullTerminated_decomp buf hnt
  have hple : p ≤ s.length := by rw [hlen]; exact hp
  rcases rest with _ | ⟨r0, rest'⟩
  · exfalso
    have hx : strnlen buf buf.length = s.length := by
      rw [heq]
      exact cstrlen_append_zero s [] hmem
    unfold insertCharacter at hins
    rw [hx] at hins
    have hcap : ¬ (s.length + 1 < buf.length) := by rw [heq]; simp
    rw [if_neg hcap] at hins
    exact absurd hins (by simp)
  · have hmem2 : 0 ∉ s.take p ++ s.drop p := by
      rw [List.take_append_drop]
      exact hmem
    have htake : (s.take p).length = p := by
      rw [List.length_take]
      omega
    have heq2 : buf = s.take p ++ (s.drop p ++ 0 :: r0 :: rest') := by
      rw [heq, ← List.append_assoc, List.take_append_drop]
    have hchar := insertCharacter_success (s.take p) (s.drop p) c r0
      rest' hmem2
    rw [htake, ← heq2] at hchar
    have hsnd : (insertCharacter buf c p).2 =
        s.take p ++ c :: (s.drop p ++ 0 :: rest') := by rw [hchar]
    constructor
    · unfold deleteCharacter
      rw [if_pos (Nat.succ_pos p)]
    · rw [hsnd]
      unfold deleteCharacter
      rw [if_pos (Nat.succ_pos p)]
      simp only [Nat.add_sub_cancel]
      have hcl : cstrlen buf + 1 - p = (s.drop p).length + 1 := by
        rw [← hlen, List.length_drop]
        omega
      rw [hcl]
      rw [show s.take p ++ c :: (s.drop p ++ 0 :: rest') =
        s.take p ++ c :: ((s.drop p ++ [0]) ++ rest') from by simp]
      have hspec := shiftLeftAux_spec ((s.drop p).length + 1) (s.take p) c
        (s.drop p ++ [0]) rest' (by simp)
      rw [htake] at hspec
      rw [hspec]
      rw [getLastD_append_single]
      have hfin : (s.take p ++ (s.drop p ++ [0])) ++ 0 :: rest' =
          s ++ 0 :: 0 :: rest' := by
        rw [← List.append_assoc, List.take_append_drop]
        simp
      rw [hfin, heq]
      rw [cstr_append_zero s (0 :: rest') hmem,
        cstr_append_zero s (r0 :: rest') hmem]

theorem strnlenAux_no_zero (src : List Nat) (n : Nat) (h : 0 ∉ src) :
    strnlenAux src n = min n src.length := by
  induction src generalizing n with
  | nil => simp [strnlenAux]
  | cons b rest ih =>
    cases n with
    | zero => simp [strnlenAux]
    | succ m =>
      have hb : b ≠ 0 := by
        intro h0
        exact h (by simp [h0])
      have hr : 0 ∉ rest := fun hmem => h (List.mem_cons_of_mem _ hmem)
      simp only [strnlenAux, hb, if_false, List.length_cons,
        ih m hr]
      omega

theorem strnlenAux_append_general (s rest : List Nat) (h : 0 ∉ s) (n : Nat) :
    strnlenAux (s ++ 0 :: rest) n = min n s.length := by
  induction s generalizing n with
  | nil =>
    cases n with
    | zero => simp [strnlenAux]
    | succ m => simp [strnlenAux]
  | cons a s' ih =>
    cases n with
    | zero => simp [strnlenAux]
    | succ m =>
      have ha : a ≠ 0 := by
        intro h0
        exact h (by simp [h0])
      have hs' : 0 ∉ s' := fun hmem => h (List.mem_cons_of_mem _ hmem)
      simp only [List.cons_append, strnlenAux, ha, if_false,
        List.length_cons, List.append_eq, ih hs' m]
      omega

theorem no_zero_take_strnlenAux (l : List Nat) (n : Nat) :
    0 ∉ l.take (strnlenAux l n) := by
  induction l generalizing n with
  | nil => simp [strnlenAux]
  | cons b rest ih =>
    cases n with
    | zero => simp [strnlenAux]
    | succ m =>
      by_cases hb : b = 0
      · simp [strnlenAux, hb]
      · simp only [strnlenAux, hb, if_false, List.take_succ_cons,
          List.mem_cons]
        intro hc
        rcases hc with h0 | h0
        · exact hb h0.symm
        · exact ih m h0

theorem listCopy_spec :
    ∀ (src s₁ old1 old2 : List Nat), old1.length = src.length →
      listCopy (s₁ ++ (old1 ++ old2)) s₁.length src = s₁ ++ (src ++ old2) := by
  intro src
  induction src with
  | nil =>
    intro s₁ old1 old2 h
    have : old1 = [] := List.length_eq_zero.mp (by simpa using h)
    subst this
    simp [listCopy]
  | cons b src' ih =>
    intro s₁ old1 old2 h
    cases old1 with
    | nil => simp at h
    | cons o old1' =>
      have h' : old1'.length = src'.length := by simpa using h
      show listCopy ((s₁ ++ (o :: old1' ++ old2)).set s₁.length b)
        (s₁.length + 1) src' = _
      have hset : (s₁ ++ (o :: old1' ++ old2)).set s₁.length b =
          (s₁ ++ [b]) ++ (old1' ++ old2) := by
        have := set_append_right s₁ (o :: (old1' ++ old2)) 0 b
        simp only [Nat.add_zero] at this
        simp only [List.cons_append] at this ⊢
        rw [this]
        simp
      rw [hset]
      have hlen : s₁.length + 1 = (s₁ ++ [b]).length := by simp
      rw [hlen, ih (s₁ ++ [b]) old1' old2 h']
      simp

/-- The workhorse characterization of strbuf_append: on a buffer holding
the 0-free string s with rest bytes after the terminator, it appends the
first strnlen(src, maxChars) bytes of src and re-terminates, consuming
that many bytes of rest. -/
theorem strbuf_append_spec (s rest src : List Nat) (cap maxChars : Nat)
    (h0 : 0 ∉ s) (hcap : cap = s.length + 1 + rest.length)
    (hfit : (src.take (strnlen src maxChars)).length ≤ rest.length) :
    strbuf_append (s ++ 0 :: rest) cap src maxChars =
      s ++ src.take (strnlen src maxChars) ++
        0 :: rest.drop (src.take (strnlen src maxChars)).length := by
  have hsl : strnlen src maxChars ≤ src.length := by
    show strnlenAux src maxChars ≤ _
    have := strnlenAux_le src maxChars
    omega
  have he : (src.take (strnlen src maxChars)).length = strnlen src maxChars := by
    rw [List.length_take]
    omega
  have hloc : strnlen (s ++ 0 :: rest) cap = s.length := by
    show strnlenAux _ _ = _
    rw [strnlenAux_append_general s rest h0 cap]
    omega
  simp only [strbuf_append]
  rw [hloc]
  have hcount : min ((strnlen src maxChars : Nat) : Int)
      ((cap : Int) - (s.length : Nat) - 1) =
      ((strnlen src maxChars : Nat) : Int) := by
    rw [hcap]
    push_cast
    rw [he] at hfit
    omega
  rw [hcount]
  rcases hzero : strnlen src maxChars with _ | m
  · -- nothing to append: only the terminator write, on the existing 0
    rw [if_neg (by omega)]
    have hidx : (((s.length : Nat) : Int) + ((0 : Nat) : Int)).toNat =
        s.length := by omega
    rw [hidx]
    have := set_append_right s (0 :: rest) 0 0
    simp only [Nat.add_zero] at this
    rw [this]
    simp [hzero]
  · -- m + 1 bytes to append
    rw [if_pos (by omega)]
    have htoNat : (((m + 1 : Nat) : Int)).toNat = m + 1 := by omega
    rw [htoNat]
    rw [he, hzero] at hfit
    have hmlt : m < rest.length := by omega
    have hnn : rest.drop m ≠ [] := by
      intro hnil
      have := List.length_drop m rest
      rw [hnil] at this
      simp at this
      omega
    obtain ⟨z, r2, hzr⟩ := List.exists_cons_of_ne_nil hnn
    have hdropsucc : ∀ (l : List Nat) (n : Nat), l.drop (n + 1) = (l.drop n).tail := by
      intro l
      induction l with
      | nil => intro n; simp
      | cons a t ih =>
        intro n
        cases n with
        | zero => simp
        | succ k => simpa using ih k
    have hr2 : rest.drop (m + 1) = r2 := by
      rw [hdropsucc, hzr]
      rfl
    have hrest : rest = rest.take m ++ (z :: r2) := by
      rw [← hzr, List.take_append_drop]
    have hold1 : (0 :: rest.take m).length = (src.take (m + 1)).length := by
      simp only [List.length_cons, List.length_take]
      have : src.length ≥ m + 1 := by omega
      omega
    have hbody : s ++ 0 :: rest = s ++ ((0 :: rest.take m) ++ (z :: r2)) := by
      conv_lhs => rw [hrest]
      simp
    rw [hbody, listCopy_spec (src.take (m + 1)) s (0 :: rest.take m)
      (z :: r2) hold1]
    have hidx : (((s.length : Nat) : Int) + ((m + 1 : Nat) : Int)).toNat =
        (s ++ src.take (m + 1)).length + 0 := by
      simp only [List.length_append, List.length_take]
      omega
    have hassoc : s ++ (src.take (m + 1) ++ (z :: r2)) =
        (s ++ src.take (m + 1)) ++ (z :: r2) := by simp
    rw [hassoc, hidx, set_append_right (s ++ src.take (m + 1)) (z :: r2) 0 0]
    have hlen2 : (src.take (m + 1)).length = m + 1 := by
      rw [List.length_take]
      omega
    rw [hlen2, hr2]
    simp

/-- After removeEditLine and the extra clearing write of handleHotkey,
the line buffer is an empty string followed by capacity - 1 junk bytes. -/
theorem cleared_decomp (buf : List Nat) (len : Nat) (hN : 0 < buf.length) :
    ∃ t, (removeEditLine buf len).set 0 0 = 0 :: t ∧
      t.length = buf.length - 1 := by
  have hM : (memsetSpaces buf len).length = buf.length := by
    simp only [memsetSpaces, List.length_append, List.length_replicate,
      List.length_drop]
    omega
  rcases hM' : memsetSpaces buf len with _ | ⟨h0, t⟩
  · rw [hM'] at hM
    simp at hM
    omega
  · refine ⟨t, ?_, ?_⟩
    · unfold removeEditLine
      rw [hM']
      rfl
    · rw [hM'] at hM
      simp only [List.length_cons] at hM
      omega

/-- C6 counterexample input: hotkey slot AB%sCD (prefix AB, suffix CD) and
buffer XYZ in a capacity-8 buffer.  The composed result ABXYZCD has 7
characters, so with its terminator it exactly fills the 8-byte buffer and
does not exceed the capacity; yet handleHotkey signals too-long (bell),
refuses, and leaves the buffer unchanged. -/
theorem C6_hotkey_too_long_counterexample :
    (handleHotkey (some [65, 66, 37, 115, 67, 68])
        [88, 89, 90, 0, 0, 0, 0, 0] 3 3 true).2.2 = true
    ∧ (handleHotkey (some [65, 66, 37, 115, 67, 68])
        [88, 89, 90, 0, 0, 0, 0, 0] 3 3 true).1 = false
    ∧ (handleHotkey (some [65, 66, 37, 115, 67, 68])
        [88, 89, 90, 0, 0, 0, 0, 0] 3 3 true).2.1 =
        [88, 89, 90, 0, 0, 0, 0, 0]
    ∧ 2 + cstrlen [88, 89, 90, 0, 0, 0, 0, 0] + 2 + 1 ≤
        [88, 89, 90, 0, 0, 0, 0, 0].length := by decide

/-- C6 (amended): for a hotkey slot with a marker and component lengths
below 256, the too-long condition (bell) fires exactly when
prefix + buffer + suffix + 1 is at least the buffer capacity, that is,
also in the boundary case where the composed result would exactly fill
the capacity including its terminator; on that failure the expansion is
not handled and the buffer is unchanged. -/
theorem C6_hotkey_too_long (pre suf buf : List Nat) (p len : Nat)
    (allocOk : Bool)
    (hm : strstr2 (pre ++ 37 :: 115 :: suf) 37 115 = some pre.length)
    (hpre : pre.length < 256) (hrep : cstrlen buf < 256)
    (hsuf : suf.length < 256) :
    ((handleHotkey (some (pre ++ 37 :: 115 :: suf)) buf p len allocOk).2.2 =
        true ↔
      buf.length ≤ pre.length + cstrlen buf + suf.length + 1)
    ∧ ((handleHotkey (some (pre ++ 37 :: 115 :: suf)) buf p len
          allocOk).2.2 = true →
        (handleHotkey (some (pre ++ 37 :: 115 :: suf)) buf p len
          allocOk).1 = false ∧
        (handleHotkey (some (pre ++ 37 :: 115 :: suf)) buf p len
          allocOk).2.1 = buf) := by
  have hsuflen : (pre ++ 37 :: 115 :: suf).length - (pre.length + 2) =
      suf.length := by
    simp
    omega
  simp only [handleHotkey, hm]
  rw [hsuflen, Nat.mod_eq_of_lt hpre, Nat.mod_eq_of_lt hrep,
    Nat.mod_eq_of_lt hsuf]
  by_cases hcond : buf.length ≤ pre.length + cstrlen buf + suf.length + 1
  · rw [if_pos hcond]
    exact ⟨by simp [hcond], fun _ => ⟨rfl, rfl⟩⟩
  · rw [if_neg hcond]
    cases allocOk <;> simp [hcond]

theorem C6_hotkey_too_long_witness :
    (handleHotkey (some [65, 66, 37, 115, 67, 68]) [88, 89, 90, 0, 0, 0]
        3 3 true).2.2 = true ↔
      [88, 89, 90, 0, 0, 0].length ≤
        2 + cstrlen [88, 89, 90, 0, 0, 0] + 2 + 1 :=
  by exact (C6_hotkey_too_long [65, 66] [67, 68] [88, 89, 90, 0, 0, 0] 3 3
    true (by decide) (by decide) (by decide) (by decide)).1

/-- C5: a successful hotkey expansion of a slot with a substitution marker
replaces the whole line with prefix ++ buffer ++ suffix. -/
theorem C5_hotkey_marker_expansion (pre suf buf : List Nat) (p len : Nat)
    (h0p : 0 ∉ pre) (h0s : 0 ∉ suf) (hnt : NullTerminated buf)
    (hm : strstr2 (pre ++ 37 :: 115 :: suf) 37 115 = some pre.length)
    (hpre : pre.length < 256) (hrep : cstrlen buf < 256)
    (hsuf : suf.length < 256)
    (hfit : pre.length + cstrlen buf + suf.length + 1 < buf.length) :
    (handleHotkey (some (pre ++ 37 :: 115 :: suf)) buf p len true).1 = true ∧
      cstr (handleHotkey (some (pre ++ 37 :: 115 :: suf)) buf p len
        true).2.1 = pre ++ cstr buf ++ suf ∧
      (handleHotkey (some (pre ++ 37 :: 115 :: suf)) buf p len true).2.2 =
        false := by
  obtain ⟨B, junk, heqB, hmemB, hlenB⟩ := nullTerminated_decomp buf hnt
  have hcstrB : cstr buf = B := by
    rw [heqB]
    exact cstr_append_zero B junk hmemB
  have hnos : (0 : Nat) ∉ pre ++ 37 :: 115 :: suf := by
    simp only [List.mem_append, List.mem_cons]
    intro hc
    rcases hc with h | h | h | h
    · exact h0p h
    · norm_num at h
    · norm_num at h
    · exact h0s h
  have hsuflen : (pre ++ 37 :: 115 :: suf).length - (pre.length + 2) =
      suf.length := by
    simp
    omega
  simp only [handleHotkey, hm]
  rw [hsuflen, Nat.mod_eq_of_lt hpre, Nat.mod_eq_of_lt hrep,
    Nat.mod_eq_of_lt hsuf]
  rw [if_neg (by omega)]
  rw [if_pos trivial]
  refine ⟨rfl, ?_, rfl⟩
  rw [List.replicate_succ]
  -- step 1: append the prefix into the composition buffer
  have htk1 : (pre ++ 37 :: 115 :: suf).take
      (strnlen (pre ++ 37 :: 115 :: suf) pre.length) = pre := by
    have hsn : strnlen (pre ++ 37 :: 115 :: suf) pre.length = pre.length := by
      show strnlenAux _ _ = _
      rw [strnlenAux_no_zero _ _ hnos]
      simp only [List.length_append, List.length_cons]
      omega
    rw [hsn]
    exact List.take_left pre _
  have spec1 := strbuf_append_spec []
    (List.replicate (pre.length + cstrlen buf + suf.length) 0)
    (pre ++ 37 :: 115 :: suf)
    (pre.length + cstrlen buf + suf.length + 1) pre.length
    (by simp)
    (by simp only [List.length_nil, List.length_replicate]; omega)
    (by rw [htk1]; simp only [List.length_replicate]; omega)
  rw [htk1] at spec1
  simp only [List.nil_append] at spec1
  rw [spec1]
  -- step 2: append the current buffer string
  have hsb : strnlen buf (strnlen buf buf.length) = B.length := by
    have h1 : strnlen buf buf.length = B.length := hlenB.symm
    rw [h1, heqB]
    show strnlenAux _ _ = _
    rw [strnlenAux_append_general B junk hmemB]
    simp
  have htk2 : buf.take (strnlen buf (strnlen buf buf.length)) = B := by
    rw [hsb, heqB]
    exact List.take_left B _
  have spec2 := strbuf_append_spec pre
    ((List.replicate (pre.length + cstrlen buf + suf.length) 0).drop
      pre.length)
    buf (pre.length + cstrlen buf + suf.length + 1) (strnlen buf buf.length)
    h0p
    (by simp only [List.length_drop, List.length_replicate]; omega)
    (by rw [htk2]
        simp only [List.length_drop, List.length_replicate]
        omega)
  rw [htk2] at spec2
  rw [spec2]
  -- step 3: append the suffix
  have hdropsuf : (pre ++ 37 :: 115 :: suf).drop (pre.length + 2) = suf := by
    rw [show pre ++ 37 :: 115 :: suf = (pre ++ [37, 115]) ++ suf from
      by simp]
    rw [show pre.length + 2 = (pre ++ [37, 115]).length from by simp]
    exact List.drop_left _ _
  have h0preB : (0 : Nat) ∉ pre ++ B := by
    simp only [List.mem_append]
    intro hc
    rcases hc with h | h
    · exact h0p h
    · exact hmemB h
  have htk3 : ((pre ++ 37 :: 115 :: suf).drop (pre.length + 2)).take
      (strnlen ((pre ++ 37 :: 115 :: suf).drop (pre.length + 2))
        (pre.length + cstrlen buf + suf.length + 1)) = suf := by
    rw [hdropsuf]
    have hsn : strnlen suf (pre.length + cstrlen buf + suf.length + 1) =
        suf.length := by
      show strnlenAux _ _ = _
      rw [strnlenAux_no_zero _ _ h0s]
      omega
    rw [hsn]
    exact List.take_length suf
  have spec3 := strbuf_append_spec (pre ++ B)
    (((List.replicate (pre.length + cstrlen buf + suf.length) 0).drop
      pre.length).drop B.length)
    ((pre ++ 37 :: 115 :: suf).drop (pre.length + 2))
    (pre.length + cstrlen buf + suf.length + 1)
    (pre.length + cstrlen buf + suf.length + 1)
    h0preB
    (by simp only [List.length_append, List.length_drop,
          List.length_replicate]
        omega)
    (by rw [htk3]
        simp only [List.length_drop, List.length_replicate]
        omega)
  rw [htk3] at spec3
  rw [spec3]
  -- final step: copy the composition into the cleared line buffer
  obtain ⟨t, hclr, htlen⟩ := cleared_decomp buf len (by omega)
  rw [hclr]
  have h0E : (0 : Nat) ∉ (pre ++ B) ++ suf := by
    simp only [List.mem_append]
    intro hc
    rcases hc with (h | h) | h
    · exact h0p h
    · exact hmemB h
    · exact h0s h
  have htkF : ((pre ++ B) ++ suf ++
      0 :: ((((List.replicate (pre.length + cstrlen buf + suf.length)
        0).drop pre.length).drop B.length).drop suf.length)).take
      (strnlen ((pre ++ B) ++ suf ++
        0 :: ((((List.replicate (pre.length + cstrlen buf + suf.length)
          0).drop pre.length).drop B.length).drop suf.length))
        (pre.length + cstrlen buf + suf.length + 1)) = (pre ++ B) ++ suf := by
    have hsn : strnlen ((pre ++ B) ++ suf ++
        0 :: ((((List.replicate (pre.length + cstrlen buf + suf.length)
          0).drop pre.length).drop B.length).drop suf.length))
        (pre.length + cstrlen buf + suf.length + 1) =
        ((pre ++ B) ++ suf).length := by
      show strnlenAux (((pre ++ B) ++ suf) ++ 0 :: _) _ = _
      rw [strnlenAux_append_general _ _ h0E]
      simp only [List.length_append]
      omega
    rw [hsn]
    exact List.take_left _ _
  have specF := strbuf_append_spec [] t
    ((pre ++ B) ++ suf ++
      0 :: ((((List.replicate (pre.length + cstrlen buf + suf.length)
        0).drop pre.length).drop B.length).drop suf.length))
    buf.length (pre.length + cstrlen buf + suf.length + 1)
    (by simp)
    (by simp only [List.length_nil]; omega)
    (by rw [htkF]
        simp only [List.length_append]
        omega)
  rw [htkF] at specF
  simp only [List.nil_append] at specF
  rw [specF]
  rw [cstr_append_zero _ _ h0E, hcstrB]

theorem C5_hotkey_marker_expansion_witness :
    NullTerminated [84, 69, 83, 84, 0, 0, 0, 0, 0, 0, 0, 0, 0, 0, 0, 0] ∧
      cstr (handleHotkey
        (some ([82, 85, 78, 32] ++ 37 :: 115 :: [46, 98, 105, 110]))
        [84, 69, 83, 84, 0, 0, 0, 0, 0, 0, 0, 0, 0, 0, 0, 0] 4 4
        true).2.1 =
      [82, 85, 78, 32] ++
        cstr [84, 69, 83, 84, 0, 0, 0, 0, 0, 0, 0, 0, 0, 0, 0, 0] ++
        [46, 98, 105, 110] :=
  ⟨by decide,
   (C5_hotkey_marker_expansion [82, 85, 78, 32] [46, 98, 105, 110]
     [84, 69, 83, 84, 0, 0, 0, 0, 0, 0, 0, 0, 0, 0, 0, 0] 4 4
     (by decide) (by decide) (by decide) (by decide) (by decide)
     (by decide) (by decide) (by decide)).2.1⟩

/-- The non-dedup push on a history whose entries are all valid: appends
the buffer string, evicting the oldest entry when at depth. -/
theorem push_on_mapped (depth : Nat) (b : List Nat)
    (prev : List (List Nat)) (hno : Nat)
    (hb : 0 < strnlen b b.length)
    (hded : ∀ x, prev.getLast? = some x → cstr b ≠ x) :
    editHistoryPush depth b true ⟨prev.map some, hno⟩ =
      some ⟨((if prev.length = depth then prev.drop 1 else prev) ++
        [cstr b]).map some, hno⟩ := by
  have hdup : mos_strndup b b.length true = some (cstr b) := rfl
  unfold editHistoryPush
  rw [if_pos hb]
  rcases hpl : prev.getLast? with _ | x
  · have hpe : prev = [] := List.getLast?_eq_none_iff.mp hpl
    subst hpe
    simp [hdup]
  · have hlast2 : (prev.map some).getLast? = some (some x) := by
      rw [List.getLast?_map, hpl]
      rfl
    simp only [hlast2]
    rw [if_neg (hded x hpl)]
    simp only [hdup, List.length_map, Option.some.injEq, HistState.mk.injEq,
      and_true]
    by_cases hfull : prev.length = depth
    · rw [if_pos hfull, if_pos hfull]
      simp [List.map_drop]
    · rw [if_neg hfull, if_neg hfull]
      simp

/-- Iterated pushes of nonempty, adjacently distinct lines onto a history
of valid entries keep the last depth lines in order. -/
theorem pushAll_go (depth : Nat) (hd : 0 < depth) :
    ∀ (bufs : List (List Nat)) (prev : List (List Nat)) (hno : Nat),
      (∀ b ∈ bufs, 0 < strnlen b b.length) →
      prev.length ≤ depth →
      List.Chain' (fun a b => a ≠ b) (prev ++ bufs.map cstr) →
      editHistoryPushAll depth bufs ⟨prev.map some, hno⟩ =
        some ⟨((prev ++ bufs.map cstr).drop
          (prev.length + bufs.length - depth)).map some, hno⟩ := by
  intro bufs
  induction bufs with
  | nil =>
    intro prev hno hne hlen hchain
    simp only [editHistoryPushAll, List.map_nil, List.append_nil,
      List.length_nil]
    rw [show prev.length + 0 - depth = 0 from by omega]
    simp
  | cons b rest ih =>
    intro prev hno hne hlen hchain
    have hb : 0 < strnlen b b.length := hne b (by simp)
    have hchain' : List.Chain' (fun a b => a ≠ b)
        (prev ++ cstr b :: rest.map cstr) := by
      simpa using hchain
    have hded : ∀ x, prev.getLast? = some x → cstr b ≠ x := by
      intro x hx
      have := (List.chain'_append.mp hchain').2.2 x hx (cstr b) rfl
      exact fun he => this he.symm
    simp only [editHistoryPushAll]
    rw [push_on_mapped depth b prev hno hb hded]
    rw [Option.some_bind]
    by_cases hfull : prev.length = depth
    · rw [if_pos hfull]
      obtain ⟨p0, ptail, rfl⟩ : ∃ p0 ptail, prev = p0 :: ptail := by
        cases prev with
        | nil => rw [← hfull] at hd; simp at hd
        | cons a t => exact ⟨a, t, rfl⟩
      have hfull' : ptail.length + 1 = depth := by simpa using hfull
      have hih := ih (ptail ++ [cstr b]) hno
        (fun b' hb' => hne b' (List.mem_cons_of_mem _ hb'))
        (by simp; omega)
        (by
          have h1 : (p0 :: (ptail ++ cstr b :: rest.map cstr)).Chain'
              (fun a b => a ≠ b) := by simpa using hchain'
          have h2 := h1.tail
          simpa using h2)
      simp only [List.drop_succ_cons, List.drop_zero]
      rw [hih]
      have hi1 : (ptail ++ [cstr b]).length + rest.length - depth =
          rest.length := by
        simp only [List.length_append, List.length_cons, List.length_nil]
        omega
      have hi2 : (p0 :: ptail).length + (b :: rest).length - depth =
          rest.length + 1 := by
        simp only [List.length_cons]
        omega
      rw [hi1, hi2]
      rw [show p0 :: ptail ++ List.map cstr (b :: rest) =
        p0 :: (ptail ++ cstr b :: List.map cstr rest) from by simp]
      rw [List.drop_succ_cons]
      rw [show ptail ++ [cstr b] ++ List.map cstr rest =
        ptail ++ cstr b :: List.map cstr rest from by simp]
    · rw [if_neg hfull]
      have hih := ih (prev ++ [cstr b]) hno
        (fun b' hb' => hne b' (List.mem_cons_of_mem _ hb'))
        (by simp; omega)
        (by simpa using hchain')
      rw [hih]
      have hi1 : (prev ++ [cstr b]).length + rest.length - depth =
          prev.length + (b :: rest).length - depth := by
        simp only [List.length_append, List.length_cons, List.length_nil]
        omega
      rw [hi1]
      rw [show prev ++ [cstr b] ++ List.map cstr rest =
        prev ++ List.map cstr (b :: rest) from by simp]

/-- C7: editHistoryPush is a no-op (the whole history state returned
unchanged) when the buffer is empty or equals the most recent entry; and
after a successful push of a nonempty line, an immediate second push of
the same line leaves the state, hence history_size, unchanged. -/
theorem C7_history_push_dedup (depth : Nat) (buf : List Nat)
    (st : HistState) (allocOk allocOk2 : Bool) :
    (strnlen buf buf.length = 0 →
      editHistoryPush depth buf allocOk st = some st)
    ∧ (∀ s, st.entries.getLast? = some (some s) → cstr buf = s →
        editHistoryPush depth buf allocOk st = some st)
    ∧ (0 < strnlen buf buf.length →
        ∀ st', editHistoryPush depth buf true st = some st' →
          editHistoryPush depth buf allocOk2 st' = some st') := by
  have hdup : mos_strndup buf buf.length true = some (cstr buf) := rfl
  refine ⟨?_, ?_, ?_⟩
  · intro h0
    unfold editHistoryPush
    rw [if_neg (by omega)]
  · intro s hlast heq
    unfold editHistoryPush
    by_cases h0 : 0 < strnlen buf buf.length
    · rw [if_pos h0]
      simp only [hlast]
      rw [if_pos heq]
    · rw [if_neg h0]
  · intro h0 st' hpush
    have hself : ∀ st2 : HistState,
        st2.entries.getLast? = some (some (cstr buf)) →
        editHistoryPush depth buf allocOk2 st2 = some st2 := by
      intro st2 hl2
      unfold editHistoryPush
      rw [if_pos h0]
      simp only [hl2]
      rw [if_pos trivial]
    unfold editHistoryPush at hpush
    rw [if_pos h0] at hpush
    rcases hpl : st.entries.getLast? with _ | os
    · simp only [hpl, Option.some.injEq] at hpush
      apply hself
      rw [← hpush]
      simp [hdup, List.getLast?_concat]
    · rcases os with _ | s
      · simp [hpl] at hpush
      · simp only [hpl] at hpush
        by_cases heq : cstr buf = s
        · rw [if_pos heq] at hpush
          simp only [Option.some.injEq] at hpush
          apply hself
          rw [← hpush, hpl, heq]
        · rw [if_neg heq] at hpush
          simp only [Option.some.injEq] at hpush
          apply hself
          rw [← hpush]
          simp [hdup, List.getLast?_concat]

theorem C7_history_push_dedup_witness :
    editHistoryPush 3 [65, 0] true ⟨[some [65]], 0⟩ =
      some ⟨[some [65]], 0⟩ :=
  (C7_history_push_dedup 3 [65, 0] ⟨[some [65]], 0⟩ true true).2.1
    [65] (by decide) (by decide)

/-- C8: pushing depth + 1 pairwise-distinct nonempty lines into an empty
history leaves exactly the last depth lines, in submission order, the
oldest evicted. -/
theorem C8_history_fifo_eviction (depth : Nat) (hd : 0 < depth)
    (bufs : List (List Nat)) (hlen : bufs.length = depth + 1)
    (hne : ∀ b ∈ bufs, 0 < strnlen b b.length)
    (hdist : List.Pairwise (fun a b => cstr a ≠ cstr b) bufs) :
    editHistoryPushAll depth bufs ⟨[], 0⟩ =
      some ⟨((bufs.map cstr).drop 1).map some, 0⟩
    ∧ (((bufs.map cstr).drop 1).map some).length = depth := by
  have hchain : List.Chain' (fun a b => a ≠ b)
      (([] : List (List Nat)) ++ bufs.map cstr) := by
    simp only [List.nil_append]
    exact (List.pairwise_map.mpr hdist).chain'
  have := pushAll_go depth hd bufs [] 0 hne (by simp) hchain
  simp only [List.map_nil, List.nil_append, List.length_nil] at this
  rw [show 0 + bufs.length - depth = 1 from by omega] at this
  refine ⟨this, ?_⟩
  simp [hlen]

theorem C8_history_fifo_eviction_witness :
    editHistoryPushAll 2 [[65, 0], [66, 0], [67, 0]] ⟨[], 0⟩ =
      some ⟨[some [66], some [67]], 0⟩ :=
  by
    have := (C8_history_fifo_eviction 2 (by decide)
      [[65, 0], [66, 0], [67, 0]] (by decide) (by decide) (by decide)).1
    simpa using this

/-- C9: at the failing input (nonempty line, allocation failure), the code
does not skip the push: it stores the NULL result of mos_strndup as a
history entry and increments history_size from 0 to 1, and the stored
NULL entry makes the next push crash in strcmp (modelled as none). -/
theorem C9_history_push_alloc_failure_stores_null :
    editHistoryPush 5 [65, 0] false ⟨[], 0⟩ = some ⟨[none], 0⟩
    ∧ (⟨[none], 0⟩ : HistState) ≠ ⟨[], 0⟩
    ∧ editHistoryPush 5 [66, 0] true ⟨[none], 0⟩ = none := by decide

theorem lcpCI_length_le (A : List Nat) : ∀ b, (lcpCI A b).length ≤ A.length := by
  induction A with
  | nil => intro b; simp [lcpCI]
  | cons a as ih =>
    intro b
    cases b with
    | nil => simp [lcpCI]
    | cons b0 bs =>
      unfold lcpCI
      by_cases ht : toupperB a = toupperB b0
      · rw [if_pos ht]
        simpa using ih bs
      · rw [if_neg ht]
        simp

theorem lcpCI_take (A : List Nat) : ∀ b, lcpCI A b = A.take (lcpCI A b).length := by
  induction A with
  | nil => intro b; simp [lcpCI]
  | cons a as ih =>
    intro b
    cases b with
    | nil => simp [lcpCI]
    | cons b0 bs =>
      unfold lcpCI
      by_cases ht : toupperB a = toupperB b0
      · rw [if_pos ht]
        simp only [List.length_cons, List.take_succ_cons, List.cons.injEq,
          true_and]
        exact ih bs
      · rw [if_neg ht]
        simp

theorem lcpCI_cons (a b0 : Nat) (as bs : List Nat) :
    lcpCI (a :: as) (b0 :: bs) =
      if toupperB a = toupperB b0 then a :: lcpCI as bs else [] := rfl

theorem lcpCI_nil_right (a : Nat) (as : List Nat) :
    lcpCI (a :: as) [] = [] := rfl

theorem toupperB_eq_zero (a : Nat) : toupperB a = 0 ↔ a = 0 := by
  unfold toupperB
  split_ifs with h
  · omega
  · exact Iff.rfl

/-- The truncation loop finds exactly the length of the longest shared
case-insensitive prefix: no index when the whole accumulator is shared. -/
theorem truncIdxGo_spec (A : List Nat) (hA : 0 ∉ A) :
    ∀ (suffix : List Nat) (j0 : Nat), truncIdxGo A suffix j0 =
      if lcpCI A suffix = A then none
      else some (j0 + (lcpCI A suffix).length) := by
  induction A with
  | nil =>
    intro suffix j0
    simp [truncIdxGo, lcpCI]
  | cons a as ih =>
    intro suffix j0
    have ha : a ≠ 0 := by
      intro h0
      exact hA (by simp [h0])
    have hA' : 0 ∉ as := fun h => hA (List.mem_cons_of_mem _ h)
    cases suffix with
    | nil =>
      unfold truncIdxGo
      rw [if_pos (by simp [nth])]
      rw [lcpCI_nil_right]
      rw [if_neg (by simp)]
      simp
    | cons s0 ss =>
      unfold truncIdxGo
      have hnth0 : nth (s0 :: ss) 0 = s0 := rfl
      by_cases ht : toupperB a = toupperB s0
      · have hs0 : s0 ≠ 0 := by
          intro h0
          rw [h0] at ht
          have : toupperB 0 = 0 := rfl
          rw [this] at ht
          exact ha ((toupperB_eq_zero a).mp ht)
        rw [if_neg (by
          rw [hnth0]
          push_neg
          exact ⟨hs0, by simpa using ht⟩)]
        have hdrop : (s0 :: ss).drop 1 = ss := rfl
        rw [hdrop, ih hA' ss (j0 + 1)]
        rw [lcpCI_cons, if_pos ht]
        by_cases hl : lcpCI as ss = as
        · rw [if_pos hl, if_pos (by rw [hl])]
        · rw [if_neg hl, if_neg (by
            intro hc
            exact hl (by simpa using hc))]
          simp only [List.length_cons, Option.some.injEq]
          omega
      · rw [if_pos (by rw [hnth0]; right; exact ht)]
        rw [lcpCI_cons, if_neg ht]
        rw [if_neg (by simp)]
        simp

/-- Seeding step of the accumulator (first candidate). -/
theorem notify_seed (ev : NotifyEv) (ctx : TabCtx)
    (h0 : ctx.num_matches = 0)
    (hfit : ev.suffix.length + 1 ≤ ctx.expansion.length)
    (hs : 0 ∉ ev.suffix) :
    ∃ R, (notify_tab_expansion ev ctx).expansion = ev.suffix ++ 0 :: R
      ∧ (notify_tab_expansion ev ctx).num_matches = 1 := by
  unfold notify_tab_expansion
  rw [if_pos h0]
  have hmin : min ev.suffix.length (ctx.expansion.length - 1) =
      ev.suffix.length := by omega
  rw [hmin, List.take_length]
  have hsplit : ctx.expansion = [] ++
      (ctx.expansion.take ev.suffix.length ++
        ctx.expansion.drop ev.suffix.length) := by
    simp
  have hlen1 : (ctx.expansion.take ev.suffix.length).length =
      ev.suffix.length := by
    rw [List.length_take]
    omega
  have hnn : ctx.expansion.drop ev.suffix.length ≠ [] := by
    intro hnil
    have := List.length_drop ev.suffix.length ctx.expansion
    rw [hnil] at this
    simp at this
    omega
  obtain ⟨z, r2, hzr⟩ := List.exists_cons_of_ne_nil hnn
  have hcopy : listCopy ctx.expansion 0 ev.suffix =
      ev.suffix ++ (z :: r2) := by
    conv_lhs => rw [hsplit]
    rw [show (0 : Nat) = ([] : List Nat).length from rfl]
    rw [listCopy_spec ev.suffix [] (ctx.expansion.take ev.suffix.length)
      (ctx.expansion.drop ev.suffix.length) hlen1]
    rw [hzr]
    simp
  rw [hcopy]
  have hset : (ev.suffix ++ (z :: r2)).set ev.suffix.length 0 =
      ev.suffix ++ 0 :: r2 := by
    have := set_append_right ev.suffix (z :: r2) 0 0
    simp only [Nat.add_zero] at this
    rw [this]
    rfl
  rw [hset]
  exact ⟨r2, rfl, by simp [h0]⟩

/-- Truncation step of the accumulator (later candidates). -/
theorem notify_trunc (ev : NotifyEv) (ctx : TabCtx) (A R : List Nat)
    (hm : 0 < ctx.num_matches) (hexp : ctx.expansion = A ++ 0 :: R)
    (hA : 0 ∉ A) :
    ∃ R', (notify_tab_expansion ev ctx).expansion =
        lcpCI A ev.suffix ++ 0 :: R'
      ∧ (notify_tab_expansion ev ctx).num_matches =
        ctx.num_matches + 1 := by
  unfold notify_tab_expansion
  rw [if_neg (by omega)]
  have hcstr : cstr ctx.expansion = A := by
    rw [hexp]
    exact cstr_append_zero A R hA
  rw [hcstr, truncIdxGo_spec A hA ev.suffix 0]
  by_cases hl : lcpCI A ev.suffix = A
  · rw [if_pos hl]
    refine ⟨R, ?_, rfl⟩
    show ctx.expansion = lcpCI A ev.suffix ++ 0 :: R
    rw [hexp, hl]
  · rw [if_neg hl]
    have hle := lcpCI_length_le A ev.suffix
    have htk := lcpCI_take A ev.suffix
    have hlt : (lcpCI A ev.suffix).length < A.length := by
      rcases Nat.lt_or_ge (lcpCI A ev.suffix).length A.length with h | h
      · exact h
      · exfalso
        apply hl
        rw [htk, List.take_of_length_le (by omega)]
    have hnn : A.drop (lcpCI A ev.suffix).length ≠ [] := by
      intro hnil
      have := List.length_drop (lcpCI A ev.suffix).length A
      rw [hnil] at this
      simp at this
      omega
    obtain ⟨z, r2, hzr⟩ := List.exists_cons_of_ne_nil hnn
    have hsplit : ctx.expansion =
        A.take (lcpCI A ev.suffix).length ++
          (z :: (r2 ++ 0 :: R)) := by
      rw [hexp]
      conv_lhs => rw [← List.take_append_drop (lcpCI A ev.suffix).length A]
      rw [hzr]
      simp
    have hlen1 : (A.take (lcpCI A ev.suffix).length).length =
        (lcpCI A ev.suffix).length := by
      rw [List.length_take]
      omega
    have hset : ctx.expansion.set (0 + (lcpCI A ev.suffix).length) 0 =
        lcpCI A ev.suffix ++ 0 :: (r2 ++ 0 :: R) := by
      rw [hsplit]
      rw [show (0 : Nat) + (lcpCI A ev.suffix).length =
        (A.take (lcpCI A ev.suffix).length).length + 0 from by
          rw [hlen1]; omega]
      rw [set_append_right (A.take (lcpCI A ev.suffix).length)
        (z :: (r2 ++ 0 :: R)) 0 0]
      rw [← htk]
      rfl
    refine ⟨r2 ++ 0 :: R, ?_, rfl⟩
    show ctx.expansion.set (0 + (lcpCI A ev.suffix).length) 0 =
      lcpCI A ev.suffix ++ 0 :: (r2 ++ 0 :: R)
    exact hset

/-- When the internal-command path of do_tab_complete is taken, the
accumulated context ends with an empty expansion string and more than one
match was seen, the buffer and cursor are unchanged and show-all mode is
entered. -/
theorem do_tab_complete_showall (table : List (List Nat))
    (argEvents fsEvents : List NotifyEv) (expCap oob : Nat)
    (buf : List Nat) (insertPos : Nat) (showall : Bool) (ctx : TabCtx)
    (hcond : ¬ (find_first_nonspace_chr buf buf.length = 46 ∨
      find_first_nonspace_chr buf buf.length = 47 ∨
      (slice_strrchr buf insertPos 32).isSome = true))
    (hctx : List.foldl (fun c e => notify_tab_expansion e c)
        { num_matches := 0, expansion := List.replicate expCap 0 }
        (internalCmdEvents table buf insertPos ++ fsEvents) = ctx)
    (hzero : cstrlen ctx.expansion = 0)
    (hnm : 1 < ctx.num_matches) :
    do_tab_complete table argEvents fsEvents expCap oob buf insertPos
      showall = (buf, insertPos, true, ctx) := by
  simp only [do_tab_complete]
  rw [if_neg hcond, hctx, hzero]
  have hsa : ctx.num_matches > 1 ∧ (0 : Nat) = 0 := ⟨hnm, rfl⟩
  rw [if_pos hsa]
  have hno : ¬ ((0 : Nat) > 0 ∨ ((0 : Nat) = 0 ∧ ctx.num_matches = 1)) := by
    omega
  rw [if_neg hno]

/-- C3: the first candidate seeds the accumulator with its suffix beyond
the typed portion; every later candidate truncates the accumulator to the
longest case-insensitive prefix shared with its suffix; and for typed
prefix C with candidates CD, COPY and CLS the accumulator ends empty,
num_matches is 3, nothing is inserted into the buffer, and the engine
enters show-all mode (for every size of the accumulator array of at
least 2 and every value of the out-of-bounds byte). -/
theorem C3_tab_common_prefix_accumulation :
    (∀ (ev : NotifyEv) (ctx : TabCtx), ctx.num_matches = 0 →
      ev.suffix.length + 1 ≤ ctx.expansion.length → 0 ∉ ev.suffix →
      ∃ R, (notify_tab_expansion ev ctx).expansion = ev.suffix ++ 0 :: R ∧
        (notify_tab_expansion ev ctx).num_matches = 1)
    ∧ (∀ (ev : NotifyEv) (ctx : TabCtx) (A R : List Nat),
        0 < ctx.num_matches → ctx.expansion = A ++ 0 :: R → 0 ∉ A →
        ∃ R', (notify_tab_expansion ev ctx).expansion =
            lcpCI A ev.suffix ++ 0 :: R' ∧
          (notify_tab_expansion ev ctx).num_matches =
            ctx.num_matches + 1)
    ∧ (∀ (expCap oob : Nat), 2 ≤ expCap →
        (do_tab_complete [[67, 68], [67, 79, 80, 89], [67, 76, 83]] [] []
            expCap oob [67, 0, 0, 0, 0, 0, 0, 0] 1 false).1 =
          [67, 0, 0, 0, 0, 0, 0, 0] ∧
        (do_tab_complete [[67, 68], [67, 79, 80, 89], [67, 76, 83]] [] []
            expCap oob [67, 0, 0, 0, 0, 0, 0, 0] 1 false).2.1 = 1 ∧
        (do_tab_complete [[67, 68], [67, 79, 80, 89], [67, 76, 83]] [] []
            expCap oob [67, 0, 0, 0, 0, 0, 0, 0] 1 false).2.2.1 = true ∧
        (do_tab_complete [[67, 68], [67, 79, 80, 89], [67, 76, 83]] [] []
            expCap oob [67, 0, 0, 0, 0, 0, 0, 0] 1
            false).2.2.2.num_matches = 3 ∧
        cstr (do_tab_complete [[67, 68], [67, 79, 80, 89], [67, 76, 83]]
            [] [] expCap oob [67, 0, 0, 0, 0, 0, 0, 0] 1
            false).2.2.2.expansion = []) := by
  refine ⟨notify_seed, notify_trunc, ?_⟩
  intro expCap oob hcap
  obtain ⟨R1, hexp1, hnm1⟩ := notify_seed ⟨0, [67, 68], [68]⟩
    ⟨0, List.replicate expCap 0⟩ rfl
    (by simp only [List.length_cons, List.length_nil,
          List.length_replicate]
        omega)
    (by decide)
  obtain ⟨R2, hexp2, hnm2⟩ := notify_trunc ⟨0, [67, 79, 80, 89],
      [79, 80, 89]⟩
    (notify_tab_expansion ⟨0, [67, 68], [68]⟩
      ⟨0, List.replicate expCap 0⟩)
    [68] R1 (by rw [hnm1]; omega) hexp1 (by decide)
  rw [show lcpCI [68] [79, 80, 89] = [] from rfl] at hexp2
  obtain ⟨R3, hexp3, hnm3⟩ := notify_trunc ⟨0, [67, 76, 83], [76, 83]⟩
    (notify_tab_expansion ⟨0, [67, 79, 80, 89], [79, 80, 89]⟩
      (notify_tab_expansion ⟨0, [67, 68], [68]⟩
        ⟨0, List.replicate expCap 0⟩))
    [] R2 (by rw [hnm2, hnm1]; omega) hexp2 (by decide)
  rw [show lcpCI [] [76, 83] = [] from rfl] at hexp3
  have hnum : (notify_tab_expansion ⟨0, [67, 76, 83], [76, 83]⟩
      (notify_tab_expansion ⟨0, [67, 79, 80, 89], [79, 80, 89]⟩
        (notify_tab_expansion ⟨0, [67, 68], [68]⟩
          ⟨0, List.replicate expCap 0⟩))).num_matches = 3 := by
    rw [hnm3, hnm2, hnm1]
  have hcl : cstrlen (notify_tab_expansion ⟨0, [67, 76, 83], [76, 83]⟩
      (notify_tab_expansion ⟨0, [67, 79, 80, 89], [79, 80, 89]⟩
        (notify_tab_expansion ⟨0, [67, 68], [68]⟩
          ⟨0, List.replicate expCap 0⟩))).expansion = 0 := by
    rw [hexp3]
    simpa using cstrlen_append_zero [] R3 (by simp)
  have hcs : cstr (notify_tab_expansion ⟨0, [67, 76, 83], [76, 83]⟩
      (notify_tab_expansion ⟨0, [67, 79, 80, 89], [79, 80, 89]⟩
        (notify_tab_expansion ⟨0, [67, 68], [68]⟩
          ⟨0, List.replicate expCap 0⟩))).expansion = [] := by
    rw [hexp3]
    simpa using cstr_append_zero [] R3 (by simp)
  have hmain := do_tab_complete_showall
    [[67, 68], [67, 79, 80, 89], [67, 76, 83]] [] [] expCap oob
    [67, 0, 0, 0, 0, 0, 0, 0] 1 false
    (notify_tab_expansion ⟨0, [67, 76, 83], [76, 83]⟩
      (notify_tab_expansion ⟨0, [67, 79, 80, 89], [79, 80, 89]⟩
        (notify_tab_expansion ⟨0, [67, 68], [68]⟩
          ⟨0, List.replicate expCap 0⟩)))
    (by decide)
    (by rw [show internalCmdEvents [[67, 68], [67, 79, 80, 89],
          [67, 76, 83]] [67, 0, 0, 0, 0, 0, 0, 0] 1 ++
          ([] : List NotifyEv) =
          [⟨0, [67, 68], [68]⟩, ⟨0, [67, 79, 80, 89], [79, 80, 89]⟩,
           ⟨0, [67, 76, 83], [76, 83]⟩] from rfl]
        simp only [List.foldl_cons, List.foldl_nil])
    hcl (by rw [hnum]; omega)
  refine ⟨?_, ?_, ?_, ?_, ?_⟩
  · rw [hmain]
  · rw [hmain]
  · rw [hmain]
  · rw [hmain]; exact hnum
  · rw [hmain]; exact hcs

theorem C3_tab_common_prefix_accumulation_witness :
    (2 ≤ 8 ∧
      (do_tab_complete [[67, 68], [67, 79, 80, 89], [67, 76, 83]] [] []
          8 0 [67, 0, 0, 0, 0, 0, 0, 0] 1 false).2.2.2.num_matches = 3) ∧
      cstr (do_tab_complete [[67, 68], [67, 79, 80, 89], [67, 76, 83]]
          [] [] 8 0 [67, 0, 0, 0, 0, 0, 0, 0] 1
          false).2.2.2.expansion = [] :=
  ⟨⟨by decide,
    (C3_tab_common_prefix_accumulation.2.2 8 0 (by decide)).2.2.2.1⟩,
   (C3_tab_common_prefix_accumulation.2.2 8 0 (by decide)).2.2.2.2⟩

/-- C4 failing input: buffer CD, cursor 2, single candidate CD (adds zero
new characters).  The source then evaluates expansion(-1), reading out of
the bounds of the accumulator array: with that byte equal to the path
separator the trailing space is not appended and the buffer stays CD,
with any other value (here 0) it is appended.  The claim requires the
space to be appended in this case unconditionally. -/
theorem C4_trailing_space_oob_read :
    (do_tab_complete [[67, 68]] [] [] 8 47 [67, 68, 0, 0, 0, 0, 0, 0] 2
        false).1 = [67, 68, 0, 0, 0, 0, 0, 0]
    ∧ (do_tab_complete [[67, 68]] [] [] 8 47 [67, 68, 0, 0, 0, 0, 0, 0] 2
        false).2.1 = 2
    ∧ (do_tab_complete [[67, 68]] [] [] 8 0 [67, 68, 0, 0, 0, 0, 0, 0] 2
        false).1 = [67, 68, 32, 0, 0, 0, 0, 0]
    ∧ (do_tab_complete [[67, 68]] [] [] 8 0 [67, 68, 0, 0, 0, 0, 0, 0] 2
        false).2.1 = 3
    ∧ (do_tab_complete [[67, 68]] [] [] 8 47 [67, 68, 0, 0, 0, 0, 0, 0] 2
        false).2.2.2.num_matches = 1 := by decide

theorem C10_insert_delete_roundtrip_witness :
    NullTerminated [65, 66, 0, 0] ∧
      cstr (deleteCharacter (insertCharacter [65, 66, 0, 0] 67 1).2 (1 + 1)
        (cstrlen [65, 66, 0, 0] + 1)).2 = cstr [65, 66, 0, 0] :=
  ⟨by decide,
   (C10_insert_delete_roundtrip [65, 66, 0, 0] 67 1 (by decide) (by decide)
     (by decide) (by decide)).2⟩

theorem asciiHandle_keyr (env : EdEnv) (ev : KEvent) (keya : Nat)
    (buffer : List Nat) (insertPos len : Nat) (showall : Bool) :
    (asciiHandle env ev keya buffer insertPos len showall).keyr = 0 ∨
    (asciiHandle env ev keya buffer insertPos len showall).keyr = 0x0D ∨
    (asciiHandle env ev keya buffer insertPos len showall).keyr = 0x1B := by
  unfold asciiHandle
  by_cases h1 : keya = 0
  · rw [if_pos h1]; exact Or.inl rfl
  rw [if_neg h1]
  by_cases h2 : 0x20 ≤ keya ∧ keya ≠ 0x7F
  · rw [if_pos h2]; exact Or.inl rfl
  rw [if_neg h2]
  by_cases h3 : keya = 0x1
  · rw [if_pos h3]; exact Or.inl rfl
  rw [if_neg h3]
  by_cases h4 : keya = 0x2
  · rw [if_pos h4]; exact Or.inl rfl
  rw [if_neg h4]
  by_cases h5 : keya = 0x5
  · rw [if_pos h5]; exact Or.inl rfl
  rw [if_neg h5]
  by_cases h6 : keya = 0x9
  · rw [if_pos h6]
    by_cases hf : env.flags.testBit 1 = true
    · rw [if_pos hf]; exact Or.inl rfl
    · rw [if_neg hf]; exact Or.inl rfl
  rw [if_neg h6]
  by_cases h7 : keya = 0x0A
  · rw [if_pos h7]; exact Or.inl rfl
  rw [if_neg h7]
  by_cases h8 : keya = 0x0B
  · rw [if_pos h8]; exact Or.inl rfl
  rw [if_neg h8]
  by_cases h9 : keya = 0x0D
  · rw [if_pos h9]; exact Or.inr (Or.inl rfl)
  rw [if_neg h9]
  by_cases h10 : keya = 0x0E
  · rw [if_pos h10]; exact Or.inl rfl
  rw [if_neg h10]
  by_cases h11 : keya = 0x10
  · rw [if_pos h11]; exact Or.inl rfl
  rw [if_neg h11]
  by_cases h12 : keya = 0x6 ∨ keya = 0x15
  · rw [if_pos h12]; exact Or.inl rfl
  rw [if_neg h12]
  by_cases h13 : keya = 0x17
  · rw [if_pos h13]; exact Or.inl rfl
  rw [if_neg h13]
  by_cases h14 : keya = 0x1B
  · rw [if_pos h14]; exact Or.inr (Or.inr rfl)
  rw [if_neg h14]
  by_cases h15 : keya = 0x08 ∨ keya = 0x7F
  · rw [if_pos h15]; exact Or.inl rfl
  rw [if_neg h15]
  exact Or.inl rfl

theorem keySwitch_keyr (env : EdEnv) (ev : KEvent) (st : EdState)
    (len : Nat) (showall : Bool) :
    (keySwitch env ev st len showall).keyr = 0 ∨
    (keySwitch env ev st len showall).keyr = 0x0D ∨
    (keySwitch env ev st len showall).keyr = 0x1B := by
  cases hv : ev.vkey with
  | VK_HOME => exact Or.inl (by simp only [keySwitch, hv])
  | VK_END => exact Or.inl (by simp only [keySwitch, hv])
  | VK_PAGEUP => exact Or.inl (by simp only [keySwitch, hv])
  | VK_PAGEDOWN => exact Or.inl (by simp only [keySwitch, hv])
  | VK_LEFT => exact Or.inl (by simp only [keySwitch, hv])
  | VK_KP_LEFT => exact Or.inl (by simp only [keySwitch, hv])
  | VK_F i =>
    simp only [keySwitch, hv]
    by_cases hf : ¬ env.flags.testBit 2 = true
    · rw [if_pos hf]
      by_cases hh : (handleHotkey (env.hotkeys i) st.buffer st.insertPos
          len ev.hotkeyAllocOk).1 = true
      · rw [if_pos hh]
        exact asciiHandle_keyr env ev 0x0D _ _ _ showall
      · rw [if_neg hh]
        exact Or.inl rfl
    · rw [if_neg hf]
      exact Or.inl rfl
  | VK_OTHER =>
    simp only [keySwitch, hv]
    exact asciiHandle_keyr env ev ev.ascii st.buffer st.insertPos len
      showall

theorem histBlock_keyr (env : EdEnv) (ev : KEvent) (st : EdState)
    (t : HandleResult) (st' : EdState)
    (h : histBlock env ev st t = some st') : st'.keyr = t.keyr := by
  simp only [histBlock] at h
  by_cases hb : ¬ env.flags.testBit 3 = true
  · rw [if_pos hb] at h
    by_cases h1 : t.historyAction = 1
    · rw [if_pos h1] at h
      rw [Option.map_eq_some'] at h
      obtain ⟨r, -, h2⟩ := h
      subst h2
      rfl
    rw [if_neg h1] at h
    by_cases h2 : t.historyAction = 2
    · rw [if_pos h2] at h
      rw [Option.map_eq_some'] at h
      obtain ⟨r, -, h3⟩ := h
      subst h3
      split <;> rfl
    rw [if_neg h2] at h
    by_cases h3 : t.historyAction = 3
    · rw [if_pos h3] at h
      rw [Option.map_eq_some'] at h
      obtain ⟨r, -, h4⟩ := h
      subst h4
      split <;> rfl
    rw [if_neg h3] at h
    simp only [Option.some_inj] at h
    subst h
    rfl
  · rw [if_neg hb] at h
    simp only [Option.some_inj] at h
    subst h
    rfl

theorem edStep_keyr (env : EdEnv) (ev : KEvent) (st st' : EdState)
    (h : edStep env ev st = some st') :
    st'.keyr = 0 ∨ st'.keyr = 0x0D ∨ st'.keyr = 0x1B := by
  simp only [edStep] at h
  rw [histBlock_keyr env ev st _ st' h]
  exact keySwitch_keyr env ev st _ _

theorem runEdit_keyr (env : EdEnv) (events : List KEvent) (st : EdState)
    (k : Nat) (stf : EdState)
    (h : runEdit env events st = .returned k stf) :
    k = stf.keyr ∧ (k = 0x0D ∨ k = 0x1B) := by
  induction events generalizing st with
  | nil =>
    simp only [runEdit] at h
    exact EditOutcome.noConfusion h
  | cons e rest ih =>
    simp only [runEdit] at h
    cases hs : edStep env e st with
    | none =>
      simp only [hs] at h
      exact EditOutcome.noConfusion h
    | some st1 =>
      simp only [hs] at h
      by_cases hk : st1.keyr = 0
      · rw [if_pos hk] at h
        exact ih st1 h
      · rw [if_neg hk] at h
        injection h with h1 h2
        subst h2
        refine ⟨h1.symm, ?_⟩
        rcases edStep_keyr env e st st1 hs with h0 | h13 | h27
        · exact absurd h0 hk
        · rw [← h1]
          exact Or.inl h13
        · rw [← h1]
          exact Or.inr h27

/-- C2: whenever mos_EDITLINE returns (rather than starving on the event
list or hitting undefined behaviour), the returned value is the key code
keyr that terminated the loop and it is Enter (0x0D) or Escape (0x1B),
for every environment (hence every flags combination), event sequence,
buffer and initial history store. -/
theorem C2_exit_key (env : EdEnv) (events : List KEvent)
    (buffer : List Nat) (hist0 : List (Option (List Nat)))
    (k : Nat) (stf : EdState)
    (h : mos_EDITLINE env events buffer hist0 = .returned k stf) :
    k = stf.keyr ∧ (k = 0x0D ∨ k = 0x1B) := by
  simp only [mos_EDITLINE] at h
  exact runEdit_keyr env events _ k stf h

theorem C2_exit_key_witness :
    (13 : Nat) =
      (⟨[0, 0, 0, 0], 0, ⟨[], 0⟩, false, 13⟩ : EdState).keyr ∧
      ((13 : Nat) = 0x0D ∨ (13 : Nat) = 0x1B) :=
  C2_exit_key ⟨fun _ => none, [], 4, 2, 0⟩
    [⟨.VK_OTHER, 13, true, true, [], [], 0⟩] [0, 0, 0, 0] [] 13
    ⟨[0, 0, 0, 0], 0, ⟨[], 0⟩, false, 13⟩ rfl

end MosEditor
